import Mathlib

/-!
# Verification of the CsvNormalizer streaming pipeline

A shallow embedding of the core of the CsvNormalizer repository:

* `core/dedup/engine.py`   — `_merge_semicolon`, `DedupMergeEngine`
* `core/io/reader.py`      — `read_csv_in_chunks` encoding fallback
* `core/rules/lengths.py`  — `min_length_clear`
* `core/row_filters/engine.py` — `OneFilledRowFilter`
* `core/pipeline/runner.py`    — `run_pipeline` orchestration

Python string primitives (`str.strip`, `str.split`, `';'.join`, `str.lower`,
f-string decimal formatting) are modelled by structurally recursive functions
over `List Char` so that every definition evaluates inside the kernel.
Cells are `Option String`: `none` models a missing column or a pandas `NaN`.
-/

namespace CsvNorm

/-! ## Python string primitives -/

/-- Whitespace characters stripped by Python `str.strip()` (ASCII subset). -/
def pyIsSpace (c : Char) : Bool :=
  c = ' ' || c = '\t' || c = '\n' || c = '\r' || c = Char.ofNat 11 || c = Char.ofNat 12

/-- `str.strip()` on the character list: drop whitespace from both ends. -/
def stripList (l : List Char) : List Char :=
  ((l.dropWhile pyIsSpace).reverse.dropWhile pyIsSpace).reverse

/-- Python `s.strip()`. -/
def pyStrip (s : String) : String := ⟨stripList s.data⟩

/-- Worker for `str.split(sep)`: `acc` holds the current fragment reversed. -/
def splitChGo (sep : Char) (acc : List Char) : List Char → List (List Char)
  | [] => [acc.reverse]
  | c :: cs => if c = sep then acc.reverse :: splitChGo sep [] cs else splitChGo sep (c :: acc) cs

/-- Python `s.split(sep)` for a one-character separator. -/
def pySplit (sep : Char) (s : String) : List String :=
  (splitChGo sep [] s.data).map fun l => ⟨l⟩

/-- Python `sep.join(parts)`. -/
def pyJoin (sep : String) : List String → String
  | [] => ""
  | [x] => x
  | x :: xs => x ++ sep ++ pyJoin sep xs

/-- Python `str.split()` with no argument: split on whitespace runs, no empties. -/
def pySplitWs (s : String) : List String :=
  ((splitChGo ' ' [] (s.data.map fun c => if pyIsSpace c then ' ' else c)).map
      fun l => (⟨l⟩ : String)).filter fun p => p ≠ ""

/-- ASCII lower-casing of one character, as Python `str.lower()` does on ASCII. -/
def pyLowerChar (c : Char) : Char :=
  if 'A' ≤ c ∧ c ≤ 'Z' then Char.ofNat (c.toNat + 32) else c

/-- Python `s.lower()` (ASCII). -/
def pyLower (s : String) : String := ⟨s.data.map pyLowerChar⟩

/-- Decimal digit character. -/
def digitChar (n : Nat) : Char :=
  if n = 0 then '0' else if n = 1 then '1' else if n = 2 then '2' else if n = 3 then '3'
  else if n = 4 then '4' else if n = 5 then '5' else if n = 6 then '6' else if n = 7 then '7'
  else if n = 8 then '8' else '9'

/-- Fueled digit construction, structurally recursive so that it evaluates
inside the kernel; `fuel > n` always suffices. -/
def natDigitsAux : Nat → Nat → List Char
  | 0, _ => []
  | fuel + 1, n =>
    if n < 10 then [digitChar n] else natDigitsAux fuel (n / 10) ++ [digitChar (n % 10)]

/-- Decimal digit list of a natural number, most significant first: the
character sequence produced by Python decimal formatting (f-strings). -/
def natDigits (n : Nat) : List Char := natDigitsAux (n + 1) n

/-- Decimal rendering of a natural number (Python `f"{n}"`). -/
def natRepr (n : Nat) : String := ⟨natDigits n⟩

theorem digitChar_inj : ∀ x, x < 10 → ∀ y, y < 10 → digitChar x = digitChar y → x = y := by
  decide

theorem natDigitsAux_congr : ∀ f1 f2 n : Nat, n < f1 → n < f2 →
    natDigitsAux f1 n = natDigitsAux f2 n := by
  intro f1
  induction f1 with
  | zero => intro f2 n h1 _; omega
  | succ f ih =>
    intro f2 n h1 h2
    cases f2 with
    | zero => omega
    | succ f2p =>
      show natDigitsAux (f + 1) n = natDigitsAux (f2p + 1) n
      by_cases hn : n < 10
      · simp [natDigitsAux, hn]
      · have hd : n / 10 < n := Nat.div_lt_self (by omega) (by omega)
        simp only [natDigitsAux, hn, if_false]
        rw [ih f2p (n / 10) (by omega) (by omega)]

theorem natDigits_lt {n : Nat} (h : n < 10) : natDigits n = [digitChar n] := by
  simp [natDigits, natDigitsAux, h]

theorem natDigits_ge {n : Nat} (h : ¬ n < 10) :
    natDigits n = natDigits (n / 10) ++ [digitChar (n % 10)] := by
  have hd : n / 10 < n := Nat.div_lt_self (by omega) (by omega)
  show natDigitsAux (n + 1) n = natDigitsAux (n / 10 + 1) (n / 10) ++ [digitChar (n % 10)]
  have h1 : natDigitsAux (n + 1) n =
      natDigitsAux n (n / 10) ++ [digitChar (n % 10)] := by
    simp [natDigitsAux, h]
  rw [h1, natDigitsAux_congr n (n / 10 + 1) (n / 10) (by omega) (by omega)]

theorem natDigits_ne_nil (n : Nat) : natDigits n ≠ [] := by
  by_cases h : n < 10
  · rw [natDigits_lt h]; simp
  · rw [natDigits_ge h]; simp

theorem natDigits_inj : ∀ a b : Nat, natDigits a = natDigits b → a = b := by
  intro a
  induction a using Nat.strong_induction_on with
  | _ a ih =>
    intro b h
    by_cases ha : a < 10 <;> by_cases hb : b < 10
    · rw [natDigits_lt ha, natDigits_lt hb] at h
      simp only [List.cons.injEq] at h
      exact digitChar_inj a ha b hb h.1
    · exfalso
      rw [natDigits_lt ha, natDigits_ge hb] at h
      have hlen := congrArg List.length h
      simp only [List.length_cons, List.length_nil, List.length_append] at hlen
      have := natDigits_ne_nil (b / 10)
      rw [← List.length_pos_iff_ne_nil] at this
      omega
    · exfalso
      rw [natDigits_ge ha, natDigits_lt hb] at h
      have hlen := congrArg List.length h
      simp only [List.length_cons, List.length_nil, List.length_append] at hlen
      have := natDigits_ne_nil (a / 10)
      rw [← List.length_pos_iff_ne_nil] at this
      omega
    · rw [natDigits_ge ha, natDigits_ge hb] at h
      have h2 := congrArg List.reverse h
      simp only [List.reverse_append, List.reverse_cons, List.reverse_nil, List.nil_append,
        List.cons_append, List.cons.injEq] at h2
      have hdig : a % 10 = b % 10 :=
        digitChar_inj _ (Nat.mod_lt _ (by omega)) _ (Nat.mod_lt _ (by omega)) h2.1
      have hdiv : a / 10 = b / 10 := by
        have h3 := congrArg List.reverse h2.2
        simp only [List.reverse_reverse] at h3
        exact ih (a / 10) (Nat.div_lt_self (by omega) (by omega)) (b / 10) h3
      omega

theorem natRepr_inj {a b : Nat} (h : natRepr a = natRepr b) : a = b :=
  natDigits_inj a b (congrArg String.data h)

/-! ## Rows and cells

A row is an association list from column name to cell; a cell is
`Option String`, `none` standing for a missing column entry or pandas `NaN`.
-/

/-- A data row: column name to cell. -/
def Row : Type := List (String × Option String)

instance : DecidableEq Row := by unfold Row; infer_instance

/-- Cell of `r` at column `c`: `none` when the column is absent or the value is
`NaN` (the two cases `core/dedup/engine.py` treats alike via
`c not in row or pd.isna(row[c])`). -/
def getCell (r : Row) (c : String) : Option String :=
  (List.lookup c r).join

/-- The Python pattern `"" if (c not in row or pd.isna(row[c])) else str(row[c])`. -/
def strCell (r : Row) (c : String) : String :=
  (getCell r c).getD ""

/-! ## `_merge_semicolon` (core/dedup/engine.py lines 60-73) -/

/-- `_merge_semicolon(existing, new)` translated clause by clause from
`core/dedup/engine.py`:

```python
ex = (existing or "").strip()
nv = (new or "").strip()
if nv == "" and ex != "": return ex
if ex == "": return nv
parts = ex.split(";")
if nv and nv not in parts: parts.append(nv)
parts = [p for p in parts if p != ""]
return ";".join(parts)
``` -/
def mergeSemicolon (existing new : Option String) : String :=
  let ex := pyStrip (existing.getD "")
  let nv := pyStrip (new.getD "")
  if nv = "" ∧ ex ≠ "" then ex
  else if ex = "" then nv
  else
    let parts := pySplit ';' ex
    let parts := if nv ≠ "" ∧ nv ∉ parts then parts ++ [nv] else parts
    pyJoin ";" (parts.filter fun p => p ≠ "")

/-- The merge contract exactly as the specification words it: trim both; if
`new` is empty return `existing` (trimmed) unchanged; if `existing` is empty
return `new`; otherwise split `existing` on `;`, append `new` only if not
already present as a fragment, drop empty fragments, rejoin with `;`. -/
def specMerge (existing new : Option String) : String :=
  let ex := pyStrip (existing.getD "")
  let nv := pyStrip (new.getD "")
  if nv = "" then ex
  else if ex = "" then nv
  else
    let parts := pySplit ';' ex
    let parts := if nv ∈ parts then parts else parts ++ [nv]
    pyJoin ";" (parts.filter fun p => p ≠ "")

/-- C1: for every pair of string-or-null arguments the code's
`_merge_semicolon` computes exactly the merge function the specification
describes ("returns existing unchanged" reading the contract's opening
"trims both" as applying first, as the code does). -/
theorem merge_semicolon_meets_spec (existing new : Option String) :
    mergeSemicolon existing new = specMerge existing new := by
  unfold mergeSemicolon specMerge
  by_cases hnv : pyStrip (new.getD "") = "" <;>
    by_cases hex : pyStrip (existing.getD "") = "" <;>
      simp [hnv, hex]

/-! ## `min_length_clear` (core/rules/lengths.py)

`_sanitize_text` performs NFC normalization then removes zero-width
(U+200B..U+200D, U+FEFF) and control (U+0000..U+001F, U+007F) characters.
NFC is modelled as the identity: none of the characters this development
evaluates on are changed by NFC, and the two removal passes are modelled as
one character filter (both are character-class deletions, so order is
irrelevant). -/

/-- Zero-width characters removed by `_sanitize_text`. -/
def isZeroWidth (c : Char) : Bool :=
  (0x200B ≤ c.toNat && c.toNat ≤ 0x200D) || c.toNat = 0xFEFF

/-- Control characters removed by `_sanitize_text`. -/
def isControlCh (c : Char) : Bool :=
  c.toNat ≤ 0x1F || c.toNat = 0x7F

/-- `_sanitize_text` from core/rules/lengths.py. -/
def sanitizeText (s : String) : String :=
  ⟨s.data.filter fun c => !(isZeroWidth c || isControlCh c)⟩

/-- CJK / kana / hangul test of `_looks_like_romanized_east_asian_name`. -/
def isCJK (c : Char) : Bool :=
  (0x4E00 ≤ c.toNat && c.toNat ≤ 0x9FFF) || (0x3040 ≤ c.toNat && c.toNat ≤ 0x30FF) ||
    (0xAC00 ≤ c.toNat && c.toNat ≤ 0xD7AF)

/-- The `common_single` token set of core/rules/lengths.py. -/
def commonSingle : List String :=
  ["li", "wu", "xu", "yu", "su", "hu", "ho", "lu", "lo", "ng",
   "do", "to", "ko", "ma", "an", "bo", "xi", "qi", "he", "le"]

/-- `re.fullmatch(r"[a-z]{1,4}", p)` as a Boolean predicate. -/
def fullmatchLowerAZ14 (p : String) : Bool :=
  decide (1 ≤ p.length) && decide (p.length ≤ 4) && p.data.all fun c => 'a' ≤ c && c ≤ 'z'

/-- `_looks_like_romanized_east_asian_name` from core/rules/lengths.py. -/
def looksLikeRomanizedName (x : String) : Bool :=
  if x.data.any isCJK then true
  else
    let y := pyLower x
    let y : String := ⟨y.data.map fun c => if c = '-' || c = Char.ofNat 39 then ' ' else c⟩
    let parts := pySplitWs y
    if 1 ≤ parts.length ∧ parts.length ≤ 3 ∧ parts.all fullmatchLowerAZ14 then
      if 2 ≤ parts.length ∧ parts.all (fun p => decide (1 ≤ p.length) && decide (p.length ≤ 3)) then
        true
      else if parts.length = 1 ∧ parts.headD "" ∈ commonSingle then true
      else false
    else false

/-- The `_apply` closure of `min_length_clear` on one cell (`none` = NaN,
returned unchanged as the Python code returns `v` when `pd.isna(v)`). -/
def minLengthApplyCell (minLen : Nat) : Option String → Option String
  | none => none
  | some v =>
    let x := pyStrip (sanitizeText v)
    if x = "" then some x
    else if x.length < minLen then
      if looksLikeRomanizedName x then some v else some ""
    else some v

/-- `min_length_clear` applied to a column (the pipeline discards the stats
component, `series, _ = fn_ml(series, min_len=min_len)`). -/
def minLengthClearSeries (minLen : Nat) (cells : List (Option String)) : List (Option String) :=
  cells.map (minLengthApplyCell minLen)

/-- C6 as stated is false on the code: `"Li"` sanitizes and trims to a
non-empty value of length 2 < 3, yet `min_length_clear` keeps it unchanged,
because `"li"` is in the `common_single` romanized-East-Asian-name set. -/
theorem min_length_counterexample :
    minLengthApplyCell 3 (some "Li") = some "Li" ∧
      pyStrip (sanitizeText "Li") ≠ "" ∧ (pyStrip (sanitizeText "Li")).length < 3 := by
  refine ⟨by decide, by decide, by decide⟩

/-- C6 amended: a non-empty cell whose sanitized, trimmed value has length
below the threshold is cleared to `""` unless the value matches the
romanized-East-Asian-name heuristic, in which case it is kept unchanged;
values at or above the threshold are always unchanged. -/
theorem min_length_clear_amended (minLen : Nat) (v : String) :
    (pyStrip (sanitizeText v) ≠ "" → (pyStrip (sanitizeText v)).length < minLen →
      looksLikeRomanizedName (pyStrip (sanitizeText v)) = false →
      minLengthApplyCell minLen (some v) = some "") ∧
    (pyStrip (sanitizeText v) ≠ "" → ¬ (pyStrip (sanitizeText v)).length < minLen →
      minLengthApplyCell minLen (some v) = some v) ∧
    (pyStrip (sanitizeText v) ≠ "" → (pyStrip (sanitizeText v)).length < minLen →
      looksLikeRomanizedName (pyStrip (sanitizeText v)) = true →
      minLengthApplyCell minLen (some v) = some v) := by
  refine ⟨fun h1 h2 h3 => ?_, fun h1 h2 => ?_, fun h1 h2 h3 => ?_⟩
  · simp [minLengthApplyCell, h1, h2, h3]
  · simp [minLengthApplyCell, h1, h2]
  · simp [minLengthApplyCell, h1, h2, h3]

/-- Witness: with threshold 3, `"ab"` (short, not a romanized name) is
cleared, `"Anna"` (length 4) is unchanged, `"Li"` is kept by the heuristic. -/
theorem min_length_clear_amended_witness :
    minLengthApplyCell 3 (some "ab") = some "" ∧
      minLengthApplyCell 3 (some "Anna") = some "Anna" ∧
      minLengthApplyCell 3 (some "Li") = some "Li" :=
  ⟨(min_length_clear_amended 3 "ab").1 (by decide) (by decide) (by decide),
   (min_length_clear_amended 3 "Anna").2.1 (by decide) (by decide),
   (min_length_clear_amended 3 "Li").2.2 (by decide) (by decide) (by decide)⟩

/-! ## `read_csv_in_chunks` (core/io/reader.py)

The reader is a Python generator: for each candidate encoding it iterates
`pd.read_csv(..., chunksize=...)` inside a `try`, yielding chunks as they are
decoded; a decoding error raised mid-file is caught and the next candidate is
started from the beginning of the file.  `DecodeOutcome` models what one
candidate encoding produces on the given file: the chunks that decode before
the first error (all of them, with `err = none`, when the whole file decodes).
-/

/-- What decoding the input file under one encoding yields: the chunks
produced before the first decode error, and the error if one occurred. -/
structure DecodeOutcome where
  chunks : List (List String)
  err : Option String
  deriving DecidableEq

/-- The encoding-fallback loop of `read_csv_in_chunks`: each candidate's
chunks are yielded as they decode (the `yield` sits inside the `try`);
on error the loop moves to the next candidate, remembering `last_err`. -/
def readLoop (decode : String → DecodeOutcome) :
    Option String → List String → List (List String) × Option String
  | lastErr, [] => ([], some (lastErr.getD "Failed to read CSV"))
  | _, e :: rest =>
    match (decode e).err with
    | none => ((decode e).chunks, none)
    | some msg =>
      let r := readLoop decode (some msg) rest
      ((decode e).chunks ++ r.1, r.2)

/-- `read_csv_in_chunks`: encoding `auto` tries `utf-8` then `cp1251`. -/
def readCsvInChunks (decode : String → DecodeOutcome) (encoding : String) :
    List (List String) × Option String :=
  readLoop decode none (if encoding = "auto" then ["utf-8", "cp1251"] else [encoding])

/-- A file whose first chunk is plain ASCII but whose second chunk contains a
byte that is invalid UTF-8 and valid cp1251: under `utf-8` the first chunk
decodes and is yielded before the error; under `cp1251` the whole file
decodes. -/
def partialUtf8Decode : String → DecodeOutcome := fun enc =>
  if enc = "utf-8" then ⟨[["row1"]], some "utf-8 codec cannot decode byte 0xff"⟩
  else if enc = "cp1251" then ⟨[["row1"], ["row2"]], none⟩
  else ⟨[], some "unknown encoding"⟩

/-- C2 fails on the code: on a file whose first chunk decodes under utf-8
but a later chunk does not, the reader yields the first chunk twice — once
under utf-8 before the error, then again after restarting under cp1251 —
so `row1` is yielded twice instead of exactly once. -/
theorem reader_yields_prefix_twice :
    readCsvInChunks partialUtf8Decode "auto" = ([["row1"], ["row1"], ["row2"]], none) ∧
      ((readCsvInChunks partialUtf8Decode "auto").1.flatten.count "row1" = 2) := by
  refine ⟨by decide, by decide⟩

/-! ## `DedupMergeEngine` (core/dedup/engine.py)

The SQLite-backed aggregation table `agg (__key__ TEXT PRIMARY KEY,
__order__ INTEGER, <columns...>)` is modelled as a list of records in
insertion order; point lookup is `find?` on the key, point update maps over
the list, and the final `SELECT ... ORDER BY __order__ ASC` is an insertion
sort on the order field. -/

/-- One row of the SQLite `agg` table: key, insertion sequence number, and
the TEXT values aligned positionally with `allColumns`. -/
structure EngRec where
  key : String
  order : Nat
  values : List String
  deriving DecidableEq

/-- The mutable state of a `DedupMergeEngine`. -/
structure Engine where
  keyColumn : String
  allColumns : List String
  mergeColumns : List String
  ignoreEmpty : Bool
  orderCounter : Nat
  removed : Nat
  store : List EngRec
  deriving DecidableEq

/-- `DedupMergeEngine.__init__`: the key column is excluded from the merge
columns (`[c for c in merge_columns if c in self.all_columns and c != key_column]`). -/
def mkEngine (keyColumn : String) (allColumns mergeColumns : List String)
    (ignoreEmpty : Bool) : Engine :=
  { keyColumn := keyColumn, allColumns := allColumns,
    mergeColumns := mergeColumns.filter fun c => allColumns.contains c && c != keyColumn,
    ignoreEmpty := ignoreEmpty, orderCounter := 0, removed := 0, store := [] }

/-- The synthetic key `f"__EMPTY__#{n}"` substituted for an empty dedup key. -/
def synthKey (n : Nat) : String := "__EMPTY__#" ++ natRepr n

/-- `existing.get(col, "")` on a fetched record (`_fetch_row` returns the
stored TEXT for each column of `allColumns`, NULL read back as `""`). -/
def recGet (allColumns values : List String) (col : String) : String :=
  (List.lookup col (allColumns.zip values)).getD ""

/-- The payload captured from a row at insertion: `process_chunk` maps NaN
to None and `_insert_row` stores None as `""`, so each stored cell is
`"" if (c not in row or pd.isna(row[c])) else str(row[c])`. -/
def capture (allColumns : List String) (row : Row) : List String :=
  allColumns.map fun c => strCell row c

/-- `_fetch_row`: point lookup by key (`__key__` is the primary key). -/
def fetchRec (store : List EngRec) (key : String) : Option EngRec :=
  store.find? fun r => r.key == key

/-- `_update_row` on one record: overwrite exactly the updated columns. -/
def updateRec (allColumns : List String) (updates : List (String × String))
    (r : EngRec) : EngRec :=
  { r with values := List.zipWith (fun c v => (List.lookup c updates).getD v) allColumns r.values }

/-- `_update_row`: update the record whose key matches. -/
def applyUpdate (allColumns : List String) (store : List EngRec) (key : String)
    (updates : List (String × String)) : List EngRec :=
  store.map fun r => if r.key == key then updateRec allColumns updates r else r

/-- One iteration of the duplicate branch of `process_chunk`: the semicolon
merge of the stored value with the row's value, recorded only when it
changes the stored value. -/
def mergeEntry (allColumns values : List String) (row : Row) (col : String) :
    Option (String × String) :=
  let merged := mergeSemicolon (some (recGet allColumns values col)) (some (strCell row col))
  if merged ≠ recGet allColumns values col then some (col, merged) else none

/-- The duplicate branch of `process_chunk`: the updates dictionary built by
iterating over the merge columns in order. -/
def computeUpdates (e : Engine) (rec : EngRec) (row : Row) : List (String × String) :=
  e.mergeColumns.filterMap (mergeEntry e.allColumns rec.values row)

/-- The key under which `process_chunk` files a row: the key column's string
value, or the synthetic key `__EMPTY__#{order_counter + 1}` when that value
is empty and empty keys are ignored. -/
def rowKey (e : Engine) (row : Row) : String :=
  if e.ignoreEmpty && strCell row e.keyColumn == "" then synthKey (e.orderCounter + 1)
  else strCell row e.keyColumn

/-- `process_chunk` for a single row of the chunk. -/
def processRow (e : Engine) (row : Row) : Engine :=
  match fetchRec e.store (rowKey e row) with
  | none =>
    { e with orderCounter := e.orderCounter + 1,
             store := e.store ++ [⟨rowKey e row, e.orderCounter + 1, capture e.allColumns row⟩] }
  | some rec =>
    { e with
      store := if (computeUpdates e rec row).isEmpty then e.store
               else applyUpdate e.allColumns e.store (rowKey e row) (computeUpdates e rec row),
      removed := if !(e.ignoreEmpty && strCell row e.keyColumn == "") then e.removed + 1
                 else e.removed }

theorem processRow_insert {e : Engine} {row : Row}
    (hf : fetchRec e.store (rowKey e row) = none) :
    processRow e row =
      { e with orderCounter := e.orderCounter + 1,
               store := e.store ++ [⟨rowKey e row, e.orderCounter + 1,
                                     capture e.allColumns row⟩] } := by
  unfold processRow
  rw [hf]

theorem processRow_dup {e : Engine} {row : Row} {rec : EngRec}
    (hf : fetchRec e.store (rowKey e row) = some rec) :
    processRow e row =
      { e with
        store := if (computeUpdates e rec row).isEmpty then e.store
                 else applyUpdate e.allColumns e.store (rowKey e row) (computeUpdates e rec row),
        removed := if !(e.ignoreEmpty && strCell row e.keyColumn == "") then e.removed + 1
                   else e.removed } := by
  unfold processRow
  rw [hf]

/-- `process_chunk` over the rows of a chunk, in `df.iterrows()` order. -/
def processRows (e : Engine) (rows : List Row) : Engine :=
  rows.foldl processRow e

/-- Insert a record into a list sorted by ascending `order`. -/
def insertByOrder (x : EngRec) : List EngRec → List EngRec
  | [] => [x]
  | y :: ys => if x.order ≤ y.order then x :: y :: ys else y :: insertByOrder x ys

/-- `SELECT ... ORDER BY __order__ ASC`: sort the store by insertion order. -/
def sortByOrder : List EngRec → List EngRec
  | [] => []
  | x :: xs => insertByOrder x (sortByOrder xs)

/-- The records scanned by `export_batches`, in ascending `__order__`. -/
def exportRecords (e : Engine) : List EngRec := sortByOrder e.store

/-- The data rows produced by `export_batches`, ignoring page boundaries. -/
def exportRows (e : Engine) : List (List String) :=
  (exportRecords e).map EngRec.values

/-- The paging loop of `export_batches`: accumulate rows, emit a page as soon
as it reaches `batchSize`, emit the non-empty remainder at the end. -/
def chunkGo (bs : Nat) (acc : List (List String)) :
    List (List String) → List (List (List String))
  | [] => if acc.isEmpty then [] else [acc]
  | x :: xs =>
    if bs ≤ (acc ++ [x]).length then (acc ++ [x]) :: chunkGo bs [] xs
    else chunkGo bs (acc ++ [x]) xs

/-- `export_batches(batch_size)`. -/
def exportBatches (e : Engine) (batchSize : Nat) : List (List (List String)) :=
  chunkGo batchSize [] (exportRows e)

/-! ### Engine invariants -/

/-- Structural invariants of the engine state: the insertion counter equals
the store size, insertion sequence numbers are exactly 1..n in list order,
keys are pairwise distinct (the PRIMARY KEY constraint), and every record has
one value per column. -/
structure EngInv (e : Engine) : Prop where
  counterLen : e.orderCounter = e.store.length
  orders : e.store.map EngRec.order = List.range' 1 e.store.length
  keysNodup : (e.store.map EngRec.key).Nodup
  valuesLen : ∀ r ∈ e.store, r.values.length = e.allColumns.length

theorem updateRec_key (A : List String) (u : List (String × String)) (r : EngRec) :
    (updateRec A u r).key = r.key := rfl

theorem updateRec_order (A : List String) (u : List (String × String)) (r : EngRec) :
    (updateRec A u r).order = r.order := rfl

theorem updateRec_values_length {A : List String} (u : List (String × String)) {r : EngRec}
    (h : r.values.length = A.length) : (updateRec A u r).values.length = A.length := by
  simp [updateRec, List.length_zipWith, h]

theorem applyUpdate_map_key (A : List String) (s : List EngRec) (k : String)
    (u : List (String × String)) :
    (applyUpdate A s k u).map EngRec.key = s.map EngRec.key := by
  simp only [applyUpdate, List.map_map]
  apply List.map_congr_left
  intro r _
  by_cases h : r.key = k <;> simp [h, updateRec_key]

theorem applyUpdate_map_order (A : List String) (s : List EngRec) (k : String)
    (u : List (String × String)) :
    (applyUpdate A s k u).map EngRec.order = s.map EngRec.order := by
  simp only [applyUpdate, List.map_map]
  apply List.map_congr_left
  intro r _
  by_cases h : r.key = k <;> simp [h, updateRec_order]

theorem applyUpdate_length (A : List String) (s : List EngRec) (k : String)
    (u : List (String × String)) : (applyUpdate A s k u).length = s.length := by
  simp [applyUpdate]

theorem fetchRec_eq_none {s : List EngRec} {k : String} :
    fetchRec s k = none ↔ ∀ r ∈ s, r.key ≠ k := by
  simp [fetchRec, List.find?_eq_none]

theorem fetchRec_mem {s : List EngRec} {k : String} {r : EngRec}
    (h : fetchRec s k = some r) : r ∈ s :=
  List.mem_of_find?_eq_some h

theorem fetchRec_key {s : List EngRec} {k : String} {r : EngRec}
    (h : fetchRec s k = some r) : r.key = k := by
  have := List.find?_some h
  simpa using this

theorem mkEngine_inv (keyColumn : String) (allColumns mergeColumns : List String)
    (ignoreEmpty : Bool) : EngInv (mkEngine keyColumn allColumns mergeColumns ignoreEmpty) := by
  constructor <;> simp [mkEngine]

theorem processRow_inv {e : Engine} (h : EngInv e) (row : Row) : EngInv (processRow e row) := by
  cases hf : fetchRec e.store (rowKey e row) with
  | none =>
    rw [processRow_insert hf]
    refine ⟨?_, ?_, ?_, ?_⟩
    · simp [h.counterLen]
    · simp only [List.map_append, List.length_append, List.map_cons, List.map_nil,
        List.length_cons, List.length_nil, h.orders, h.counterLen]
      rw [List.range'_concat]
      simp [Nat.add_comm]
    · simp only [List.map_append, List.map_cons, List.map_nil]
      rw [List.nodup_append]
      refine ⟨h.keysNodup, by simp, ?_⟩
      intro a ha hb
      simp only [List.mem_singleton] at hb
      rw [List.mem_map] at ha
      obtain ⟨r, hr, hrk⟩ := ha
      exact (fetchRec_eq_none.mp hf r hr) (hrk.trans hb)
    · intro r hr
      rw [List.mem_append] at hr
      rcases hr with hr | hr
      · exact h.valuesLen r hr
      · simp only [List.mem_singleton] at hr
        subst hr
        simp [capture]
  | some rec =>
    rw [processRow_dup hf]
    refine ⟨?_, ?_, ?_, ?_⟩
    · by_cases hu : (computeUpdates e rec row).isEmpty
      · simp [hu, h.counterLen]
      · show e.orderCounter = (if (computeUpdates e rec row).isEmpty then e.store
          else applyUpdate e.allColumns e.store (rowKey e row)
            (computeUpdates e rec row)).length
        rw [if_neg hu, applyUpdate_length]
        exact h.counterLen
    · by_cases hu : (computeUpdates e rec row).isEmpty
      · simp [hu, h.orders]
      · show (if (computeUpdates e rec row).isEmpty then e.store
            else applyUpdate e.allColumns e.store (rowKey e row)
              (computeUpdates e rec row)).map EngRec.order =
          List.range' 1 (if (computeUpdates e rec row).isEmpty then e.store
            else applyUpdate e.allColumns e.store (rowKey e row)
              (computeUpdates e rec row)).length
        rw [if_neg hu, applyUpdate_map_order, applyUpdate_length]
        exact h.orders
    · by_cases hu : (computeUpdates e rec row).isEmpty
      · simp [hu, h.keysNodup]
      · show ((if (computeUpdates e rec row).isEmpty then e.store
            else applyUpdate e.allColumns e.store (rowKey e row)
              (computeUpdates e rec row)).map EngRec.key).Nodup
        rw [if_neg hu, applyUpdate_map_key]
        exact h.keysNodup
    · by_cases hu : (computeUpdates e rec row).isEmpty
      · simpa [hu] using h.valuesLen
      · intro r hr
        simp only [hu, Bool.false_eq_true, if_false, applyUpdate, List.mem_map] at hr
        obtain ⟨r0, hr0, hrr⟩ := hr
        subst hrr
        by_cases hm : r0.key = rowKey e row
        · simpa [hm] using updateRec_values_length _ (h.valuesLen r0 hr0)
        · simpa [hm] using h.valuesLen r0 hr0

theorem processRows_inv {e : Engine} (h : EngInv e) (rows : List Row) :
    EngInv (processRows e rows) := by
  induction rows generalizing e with
  | nil => exact h
  | cons r rs ih => exact ih (processRow_inv h r)

/-! ### Export order -/

theorem insertByOrder_front (x : EngRec) (l : List EngRec)
    (h : ∀ y ∈ l, x.order ≤ y.order) : insertByOrder x l = x :: l := by
  cases l with
  | nil => rfl
  | cons y ys => simp [insertByOrder, h y (by simp)]

theorem sortByOrder_eq_self {l : List EngRec}
    (h : l.Pairwise fun a b => a.order < b.order) : sortByOrder l = l := by
  induction l with
  | nil => rfl
  | cons x xs ih =>
    rw [List.pairwise_cons] at h
    rw [sortByOrder, ih h.2]
    exact insertByOrder_front x xs fun y hy => Nat.le_of_lt (h.1 y hy)

theorem store_pairwise_order {e : Engine} (h : EngInv e) :
    e.store.Pairwise fun a b => a.order < b.order := by
  have hr : (e.store.map EngRec.order).Pairwise (· < ·) := by
    rw [h.orders]; exact List.pairwise_lt_range' ..
  rwa [List.pairwise_map] at hr

theorem exportRecords_eq_store {e : Engine} (h : EngInv e) : exportRecords e = e.store :=
  sortByOrder_eq_self (store_pairwise_order h)

theorem chunkGo_flatten (bs : Nat) (l : List (List String)) :
    ∀ acc, (chunkGo bs acc l).flatten = acc ++ l := by
  induction l with
  | nil =>
    intro acc
    by_cases h : acc.isEmpty
    · rw [List.isEmpty_iff] at h
      simp [chunkGo, h]
    · simp [chunkGo, h]
  | cons x xs ih =>
    intro acc
    rw [chunkGo]
    split_ifs with h
    · simp [ih]
    · simp [ih]

theorem chunkGo_bounded {bs : Nat} (l : List (List String)) :
    ∀ acc, acc.length < bs → ∀ b ∈ chunkGo bs acc l, b.length ≤ bs := by
  induction l with
  | nil =>
    intro acc hacc b hb
    by_cases h : acc.isEmpty
    · simp [chunkGo, h] at hb
    · simp [chunkGo, h] at hb
      subst hb
      omega
  | cons x xs ih =>
    intro acc hacc b hb
    rw [chunkGo] at hb
    have hx : (acc ++ [x]).length = acc.length + 1 := by simp
    split_ifs at hb with h
    · rcases List.mem_cons.mp hb with hb | hb
      · subst hb
        omega
      · exact ih [] (by simp; omega) b hb
    · exact ih (acc ++ [x]) (by omega) b hb

/-- C4: after consuming any input, export scans the store in ascending
insertion-sequence order, which is exactly the order in which keys first
appeared (records are appended at first sight and never reordered); the
sequence numbers are consecutive from 1; and the rows are delivered in pages
of at most `batchSize` rows whose concatenation is the full export. -/
theorem dedup_export_first_seen_order (keyColumn : String)
    (allColumns mergeColumns : List String) (ignoreEmpty : Bool) (rows : List Row)
    (batchSize : Nat) (hbs : 0 < batchSize) :
    exportRecords (processRows (mkEngine keyColumn allColumns mergeColumns ignoreEmpty) rows) =
      (processRows (mkEngine keyColumn allColumns mergeColumns ignoreEmpty) rows).store ∧
    (exportRecords (processRows (mkEngine keyColumn allColumns mergeColumns ignoreEmpty)
        rows)).map EngRec.order =
      List.range' 1
        (processRows (mkEngine keyColumn allColumns mergeColumns ignoreEmpty) rows).store.length ∧
    (exportBatches (processRows (mkEngine keyColumn allColumns mergeColumns ignoreEmpty) rows)
        batchSize).flatten =
      exportRows (processRows (mkEngine keyColumn allColumns mergeColumns ignoreEmpty) rows) ∧
    ∀ b ∈ exportBatches (processRows (mkEngine keyColumn allColumns mergeColumns ignoreEmpty) rows)
        batchSize, b.length ≤ batchSize := by
  have hinv : EngInv (processRows (mkEngine keyColumn allColumns mergeColumns ignoreEmpty) rows) :=
    processRows_inv (mkEngine_inv ..) rows
  refine ⟨exportRecords_eq_store hinv, ?_, ?_, ?_⟩
  · rw [exportRecords_eq_store hinv, hinv.orders]
  · simpa using chunkGo_flatten batchSize (exportRows _) []
  · exact chunkGo_bounded (exportRows _) [] (by simpa using hbs)

/-- Witness for C4 at a concrete engine run and page size. -/
theorem dedup_export_first_seen_order_witness :
    exportRecords (processRows (mkEngine "id" ["id"] [] true)
        [[("id", some "a")], [("id", some "b")], [("id", some "c")]]) =
      (processRows (mkEngine "id" ["id"] [] true)
        [[("id", some "a")], [("id", some "b")], [("id", some "c")]]).store ∧
    (exportBatches (processRows (mkEngine "id" ["id"] [] true)
        [[("id", some "a")], [("id", some "b")], [("id", some "c")]]) 2).flatten =
      exportRows (processRows (mkEngine "id" ["id"] [] true)
        [[("id", some "a")], [("id", some "b")], [("id", some "c")]]) :=
  ⟨(dedup_export_first_seen_order "id" ["id"] [] true
      [[("id", some "a")], [("id", some "b")], [("id", some "c")]] 2 (by decide)).1,
   (dedup_export_first_seen_order "id" ["id"] [] true
      [[("id", some "a")], [("id", some "b")], [("id", some "c")]] 2 (by decide)).2.2.1⟩

/-! ### C7: non-merge columns carry the exemplar's values -/

theorem computeUpdates_mem (e : Engine) (rec : EngRec) (row : Row) :
    ∀ p ∈ computeUpdates e rec row, p.1 ∈ e.mergeColumns := by
  intro p hp
  rw [computeUpdates, List.mem_filterMap] at hp
  obtain ⟨col, hcol, hf⟩ := hp
  simp only [mergeEntry] at hf
  by_cases hcond : mergeSemicolon (some (recGet e.allColumns rec.values col))
      (some (strCell row col)) = recGet e.allColumns rec.values col
  · rw [if_neg (not_not_intro hcond)] at hf
    exact Option.noConfusion hf
  · rw [if_pos hcond] at hf
    have h2 := Option.some.inj hf
    rw [← h2]
    exact hcol

theorem lookup_zip_zipWith (f : String → String → String) :
    ∀ (A vals : List String) (col : String),
      List.lookup col (A.zip (List.zipWith f A vals)) =
        (List.lookup col (A.zip vals)).map fun v => f col v := by
  intro A
  induction A with
  | nil => intro vals col; simp
  | cons a as ih =>
    intro vals col
    cases vals with
    | nil => simp
    | cons v vs =>
      rw [List.zipWith_cons_cons, List.zip_cons_cons, List.zip_cons_cons]
      by_cases h : col = a
      · subst h
        simp [List.lookup]
      · have hb : (col == a) = false := by simp [h]
        simp only [List.lookup, hb]
        exact ih vs col

theorem lookup_eq_none_of_keys_mem {u : List (String × String)} {M : List String} {col : String}
    (hin : ∀ p ∈ u, p.1 ∈ M) (hcol : col ∉ M) : List.lookup col u = none := by
  induction u with
  | nil => rfl
  | cons p ps ih =>
    obtain ⟨k, v⟩ := p
    have h1 : k ∈ M := hin (k, v) (by simp)
    have hne : (col == k) = false := by
      simp only [beq_eq_false_iff_ne, ne_eq]
      intro h
      exact hcol (h ▸ h1)
    simp only [List.lookup, hne]
    exact ih fun q hq => hin q (by simp [hq])

theorem recGet_updateRec_eq {A : List String} {u : List (String × String)} {r : EngRec}
    {col : String} (hnone : List.lookup col u = none) :
    recGet A (updateRec A u r).values col = recGet A r.values col := by
  unfold recGet updateRec
  rw [lookup_zip_zipWith (fun c v => (List.lookup c u).getD v) A r.values col]
  cases h : List.lookup col (A.zip r.values) with
  | none => simp
  | some v => simp [hnone]

/-- The exemplar-capture run: identical key computation, counter and removed
bookkeeping as `processRow`, but a duplicate row writes nothing.  Its store
holds, per key, exactly the payload captured from the first-seen (exemplar)
row, so it is the comparator for the frame property of C7. -/
def processRowExemplar (e : Engine) (row : Row) : Engine :=
  match fetchRec e.store (rowKey e row) with
  | none =>
    { e with orderCounter := e.orderCounter + 1,
             store := e.store ++ [⟨rowKey e row, e.orderCounter + 1,
                                   capture e.allColumns row⟩] }
  | some _ =>
    { e with removed := if !(e.ignoreEmpty && strCell row e.keyColumn == "") then e.removed + 1
                        else e.removed }

/-- The exemplar-capture run over a list of rows. -/
def processRowsExemplar (e : Engine) (rows : List Row) : Engine :=
  rows.foldl processRowExemplar e

theorem processRowExemplar_insert {e : Engine} {row : Row}
    (hf : fetchRec e.store (rowKey e row) = none) :
    processRowExemplar e row =
      { e with orderCounter := e.orderCounter + 1,
               store := e.store ++ [⟨rowKey e row, e.orderCounter + 1,
                                     capture e.allColumns row⟩] } := by
  unfold processRowExemplar
  rw [hf]

theorem processRowExemplar_dup {e : Engine} {row : Row} {rec : EngRec}
    (hf : fetchRec e.store (rowKey e row) = some rec) :
    processRowExemplar e row =
      { e with removed := if !(e.ignoreEmpty && strCell row e.keyColumn == "") then e.removed + 1
                          else e.removed } := by
  unfold processRowExemplar
  rw [hf]

theorem fetchRec_eq_none_iff {s : List EngRec} {k : String} :
    fetchRec s k = none ↔ k ∉ s.map EngRec.key := by
  rw [fetchRec_eq_none]
  constructor
  · intro h hmem
    rw [List.mem_map] at hmem
    obtain ⟨r, hr, hrk⟩ := hmem
    exact h r hr hrk
  · intro h r hr hrk
    exact h (List.mem_map.mpr ⟨r, hr, hrk⟩)

/-- Simulation relation between the real engine `e` and the exemplar-capture
engine `g`: identical configuration and bookkeeping, identical keys and
insertion sequence numbers position by position, and identical values on
every column outside the merge-column set. -/
structure SimRel (e g : Engine) : Prop where
  cfgKey : g.keyColumn = e.keyColumn
  cfgCols : g.allColumns = e.allColumns
  cfgMerge : g.mergeColumns = e.mergeColumns
  cfgIgn : g.ignoreEmpty = e.ignoreEmpty
  counter : g.orderCounter = e.orderCounter
  removedEq : g.removed = e.removed
  keys : g.store.map EngRec.key = e.store.map EngRec.key
  ordersEq : g.store.map EngRec.order = e.store.map EngRec.order
  nonMerge : List.Forall₂
    (fun re rg => ∀ col, col ∉ e.mergeColumns →
      recGet e.allColumns re.values col = recGet e.allColumns rg.values col)
    e.store g.store

theorem processRow_sim {e g : Engine} (h : SimRel e g) (row : Row) :
    SimRel (processRow e row) (processRowExemplar g row) := by
  have hkey : rowKey g row = rowKey e row := by
    unfold rowKey
    rw [h.cfgKey, h.cfgIgn, h.counter]
  cases hfe : fetchRec e.store (rowKey e row) with
  | none =>
    have hfg : fetchRec g.store (rowKey g row) = none := by
      rw [hkey, fetchRec_eq_none_iff, h.keys, ← fetchRec_eq_none_iff]
      exact hfe
    rw [processRow_insert hfe, processRowExemplar_insert hfg]
    refine ⟨h.cfgKey, h.cfgCols, h.cfgMerge, h.cfgIgn, ?_, h.removedEq, ?_, ?_, ?_⟩
    · show g.orderCounter + 1 = e.orderCounter + 1
      rw [h.counter]
    · show (g.store ++ [_]).map EngRec.key = (e.store ++ [_]).map EngRec.key
      simp [h.keys, hkey]
    · show (g.store ++ [_]).map EngRec.order = (e.store ++ [_]).map EngRec.order
      simp [h.ordersEq, h.counter]
    · refine List.rel_append h.nonMerge ?_
      refine List.Forall₂.cons ?_ List.Forall₂.nil
      intro col _
      show recGet e.allColumns (capture e.allColumns row) col =
        recGet e.allColumns (capture g.allColumns row) col
      rw [h.cfgCols]
  | some rec =>
    cases hfg : fetchRec g.store (rowKey g row) with
    | none =>
      exfalso
      rw [hkey, fetchRec_eq_none_iff, h.keys, ← fetchRec_eq_none_iff, hfe] at hfg
      exact Option.noConfusion hfg
    | some grec =>
      rw [processRow_dup hfe, processRowExemplar_dup hfg]
      refine ⟨h.cfgKey, h.cfgCols, h.cfgMerge, h.cfgIgn, h.counter, ?_, ?_, ?_, ?_⟩
      · show (if !(g.ignoreEmpty && strCell row g.keyColumn == "") then g.removed + 1
            else g.removed) =
          (if !(e.ignoreEmpty && strCell row e.keyColumn == "") then e.removed + 1
            else e.removed)
        rw [h.cfgKey, h.cfgIgn, h.removedEq]
      · show g.store.map EngRec.key =
          (if (computeUpdates e rec row).isEmpty then e.store
            else applyUpdate e.allColumns e.store (rowKey e row)
              (computeUpdates e rec row)).map EngRec.key
        by_cases hu : (computeUpdates e rec row).isEmpty
        · rw [if_pos hu]
          exact h.keys
        · rw [if_neg hu, applyUpdate_map_key]
          exact h.keys
      · show g.store.map EngRec.order =
          (if (computeUpdates e rec row).isEmpty then e.store
            else applyUpdate e.allColumns e.store (rowKey e row)
              (computeUpdates e rec row)).map EngRec.order
        by_cases hu : (computeUpdates e rec row).isEmpty
        · rw [if_pos hu]
          exact h.ordersEq
        · rw [if_neg hu, applyUpdate_map_order]
          exact h.ordersEq
      · show List.Forall₂ _
          (if (computeUpdates e rec row).isEmpty then e.store
            else applyUpdate e.allColumns e.store (rowKey e row) (computeUpdates e rec row))
          g.store
        by_cases hu : (computeUpdates e rec row).isEmpty
        · rw [if_pos hu]
          exact h.nonMerge
        · rw [if_neg hu]
          unfold applyUpdate
          rw [List.forall₂_map_left_iff]
          refine List.Forall₂.imp ?_ h.nonMerge
          intro re rg hrel col hcol
          by_cases hk : re.key = rowKey e row
          · have hup : recGet e.allColumns
                (updateRec e.allColumns (computeUpdates e rec row) re).values col =
                recGet e.allColumns re.values col :=
              recGet_updateRec_eq
                (lookup_eq_none_of_keys_mem (computeUpdates_mem e rec row) hcol)
            simp only [hk, beq_self_eq_true, if_true]
            rw [hup]
            exact hrel col hcol
          · have hkb : (re.key == rowKey e row) = false := by simp [hk]
            simp only [hkb, Bool.false_eq_true, if_false]
            exact hrel col hcol

theorem processRows_sim {e g : Engine} (h : SimRel e g) (rows : List Row) :
    SimRel (processRows e rows) (processRowsExemplar g rows) := by
  induction rows generalizing e g with
  | nil => exact h
  | cons r rs ih => exact ih (processRow_sim h r)

theorem mkEngine_sim (keyColumn : String) (allColumns mergeColumns : List String)
    (ignoreEmpty : Bool) :
    SimRel (mkEngine keyColumn allColumns mergeColumns ignoreEmpty)
      (mkEngine keyColumn allColumns mergeColumns ignoreEmpty) :=
  ⟨rfl, rfl, rfl, rfl, rfl, rfl, rfl, rfl, List.Forall₂.nil⟩

theorem processRow_cfg (e : Engine) (row : Row) :
    (processRow e row).keyColumn = e.keyColumn ∧
      (processRow e row).allColumns = e.allColumns ∧
      (processRow e row).mergeColumns = e.mergeColumns ∧
      (processRow e row).ignoreEmpty = e.ignoreEmpty := by
  cases hf : fetchRec e.store (rowKey e row) with
  | none => rw [processRow_insert hf]; exact ⟨rfl, rfl, rfl, rfl⟩
  | some rec => rw [processRow_dup hf]; exact ⟨rfl, rfl, rfl, rfl⟩

theorem processRows_cfg (rows : List Row) : ∀ e : Engine,
    (processRows e rows).keyColumn = e.keyColumn ∧
      (processRows e rows).allColumns = e.allColumns ∧
      (processRows e rows).mergeColumns = e.mergeColumns ∧
      (processRows e rows).ignoreEmpty = e.ignoreEmpty := by
  induction rows with
  | nil => intro e; exact ⟨rfl, rfl, rfl, rfl⟩
  | cons r rs ih =>
    intro e
    have h1 := processRow_cfg e r
    have h2 := ih (processRow e r)
    exact ⟨h2.1.trans h1.1, h2.2.1.trans h1.2.1, h2.2.2.1.trans h1.2.2.1,
      h2.2.2.2.trans h1.2.2.2⟩

theorem mkEngine_key_not_merge (keyColumn : String) (allColumns mergeColumns : List String)
    (ignoreEmpty : Bool) :
    keyColumn ∉ (mkEngine keyColumn allColumns mergeColumns ignoreEmpty).mergeColumns := by
  intro hmem
  simp only [mkEngine, List.mem_filter] at hmem
  simp at hmem

/-- C7: duplicates write only to merge columns.  The engine constructor
excludes the key column from the merge set even when the caller lists it;
position by position, the real run's store carries the same keys as the
exemplar-capture run and identical values on every column outside the merge
set — in particular the key column — so each exported record's non-merge
columns hold exactly the values captured from its first-seen row. -/
theorem dedup_frame_non_merge_columns (keyColumn : String)
    (allColumns mergeColumns : List String) (ignoreEmpty : Bool) (rows : List Row) :
    keyColumn ∉ (mkEngine keyColumn allColumns mergeColumns ignoreEmpty).mergeColumns ∧
    (processRowsExemplar (mkEngine keyColumn allColumns mergeColumns ignoreEmpty)
        rows).store.map EngRec.key =
      (processRows (mkEngine keyColumn allColumns mergeColumns ignoreEmpty)
        rows).store.map EngRec.key ∧
    exportRecords (processRows (mkEngine keyColumn allColumns mergeColumns ignoreEmpty) rows) =
      (processRows (mkEngine keyColumn allColumns mergeColumns ignoreEmpty) rows).store ∧
    ∀ i (h1 : i < (processRows (mkEngine keyColumn allColumns mergeColumns ignoreEmpty)
          rows).store.length)
      (h2 : i < (processRowsExemplar (mkEngine keyColumn allColumns mergeColumns ignoreEmpty)
          rows).store.length),
      ∀ col, col ∉ (mkEngine keyColumn allColumns mergeColumns ignoreEmpty).mergeColumns →
        recGet allColumns
            (((processRows (mkEngine keyColumn allColumns mergeColumns ignoreEmpty)
              rows).store.get ⟨i, h1⟩).values) col =
          recGet allColumns
            (((processRowsExemplar (mkEngine keyColumn allColumns mergeColumns ignoreEmpty)
              rows).store.get ⟨i, h2⟩).values) col := by
  have hsim := processRows_sim (mkEngine_sim keyColumn allColumns mergeColumns ignoreEmpty) rows
  have hcfg := processRows_cfg rows (mkEngine keyColumn allColumns mergeColumns ignoreEmpty)
  have hcolsEq : (processRows (mkEngine keyColumn allColumns mergeColumns ignoreEmpty)
      rows).allColumns = allColumns := hcfg.2.1
  have hmergeEq : (processRows (mkEngine keyColumn allColumns mergeColumns ignoreEmpty)
      rows).mergeColumns = (mkEngine keyColumn allColumns mergeColumns ignoreEmpty).mergeColumns :=
    hcfg.2.2.1
  refine ⟨mkEngine_key_not_merge keyColumn allColumns mergeColumns ignoreEmpty,
    hsim.keys, exportRecords_eq_store (processRows_inv (mkEngine_inv ..) rows), ?_⟩
  intro i h1 h2 col hcol
  have hfa := (List.forall₂_iff_get.mp hsim.nonMerge).2 i h1 h2
  have := hfa col (by rw [hmergeEq]; exact hcol)
  rw [hcolsEq] at this
  exact this

/-- Witness for C7: key `id` listed among the requested merge columns is
still excluded, and with two duplicate rows the stored `id` value equals
the exemplar's. -/
theorem dedup_frame_non_merge_columns_witness :
    "id" ∉ (mkEngine "id" ["id", "email"] ["email", "id"] true).mergeColumns ∧
    recGet ["id", "email"]
        (((processRows (mkEngine "id" ["id", "email"] ["email", "id"] true)
          [[("id", some "1"), ("email", some "a@x")],
           [("id", some "1"), ("email", some "b@x")]]).store.get ⟨0, by decide⟩).values) "id" =
      recGet ["id", "email"]
        (((processRowsExemplar (mkEngine "id" ["id", "email"] ["email", "id"] true)
          [[("id", some "1"), ("email", some "a@x")],
           [("id", some "1"), ("email", some "b@x")]]).store.get ⟨0, by decide⟩).values) "id" :=
  ⟨(dedup_frame_non_merge_columns "id" ["id", "email"] ["email", "id"] true
      [[("id", some "1"), ("email", some "a@x")],
       [("id", some "1"), ("email", some "b@x")]]).1,
   (dedup_frame_non_merge_columns "id" ["id", "email"] ["email", "id"] true
      [[("id", some "1"), ("email", some "a@x")],
       [("id", some "1"), ("email", some "b@x")]]).2.2.2 0 (by decide) (by decide) "id"
     (dedup_frame_non_merge_columns "id" ["id", "email"] ["email", "id"] true
      [[("id", some "1"), ("email", some "a@x")],
       [("id", some "1"), ("email", some "b@x")]]).1⟩

/-! ### C3: empty dedup keys are never merged with each other

The synthetic key is `f"__EMPTY__#{order_counter + 1}"`.  Nothing prevents a
data key from colliding with this namespace, so the property as claimed
fails; it holds for inputs whose key values never start with `__EMPTY__#`.
-/

/-- `startsWithL pat l`: `pat` is a leading segment of `l`. -/
def startsWithL : List Char → List Char → Bool
  | [], _ => true
  | _ :: _, [] => false
  | a :: as, b :: bs => a == b && startsWithL as bs

/-- `s.startswith(pat)` in Python terms. -/
def strStartsWith (s pat : String) : Bool := startsWithL pat.data s.data

theorem startsWithL_append : ∀ p rest : List Char, startsWithL p (p ++ rest) = true := by
  intro p
  induction p with
  | nil => intro rest; rfl
  | cons a as ih => intro rest; simp [startsWithL, ih]

theorem synthKey_starts (m : Nat) : strStartsWith (synthKey m) "__EMPTY__#" = true := by
  unfold strStartsWith synthKey
  rw [String.data_append]
  exact startsWithL_append _ _

theorem synthKey_inj {a b : Nat} (h : synthKey a = synthKey b) : a = b := by
  have hd := congrArg String.data h
  simp only [synthKey, String.data_append] at hd
  have h2 := List.append_cancel_left hd
  exact natDigits_inj a b h2

theorem store_order_le {e : Engine} (h : EngInv e) {r : EngRec} (hr : r ∈ e.store) :
    r.order ≤ e.store.length := by
  have hm : r.order ∈ e.store.map EngRec.order := List.mem_map_of_mem _ hr
  rw [h.orders, List.mem_range'_1] at hm
  omega

theorem applyUpdate_mem {A : List String} {s : List EngRec} {k : String}
    {u : List (String × String)} {r' : EngRec} (h : r' ∈ applyUpdate A s k u) :
    ∃ r ∈ s, r'.key = r.key ∧ r'.order = r.order := by
  simp only [applyUpdate, List.mem_map] at h
  obtain ⟨r, hr, hrr⟩ := h
  refine ⟨r, hr, ?_, ?_⟩ <;>
    (rw [← hrr]; by_cases hk : r.key = k <;> simp [hk, updateRec_key, updateRec_order])

theorem applyUpdate_cons (A : List String) (r : EngRec) (rs : List EngRec) (k : String)
    (u : List (String × String)) :
    applyUpdate A (r :: rs) k u =
      (if r.key == k then updateRec A u r else r) :: applyUpdate A rs k u := rfl

theorem filter_map_values_applyUpdate (p : String → Bool) {A : List String}
    {s : List EngRec} {k : String} {u : List (String × String)} (hk : p k = false) :
    ((applyUpdate A s k u).filter fun r => p r.key).map EngRec.values =
      (s.filter fun r => p r.key).map EngRec.values := by
  induction s with
  | nil => rfl
  | cons r rs ih =>
    rw [applyUpdate_cons]
    by_cases hr : r.key = k
    · rw [if_pos (show (r.key == k) = true by simp [hr])]
      rw [List.filter_cons, List.filter_cons]
      have h1 : p (updateRec A u r).key = false := by rw [updateRec_key, hr]; exact hk
      have h2 : p r.key = false := by rw [hr]; exact hk
      simp only [h1, h2, Bool.false_eq_true, if_false]
      exact ih
    · rw [if_neg (show ¬ (r.key == k) = true by simp [hr])]
      rw [List.filter_cons, List.filter_cons]
      by_cases hp : p r.key = true
      · simp only [hp, if_true, List.map_cons, ih]
      · have hp2 : p r.key = false := by revert hp; cases p r.key <;> simp
        simp only [hp2, Bool.false_eq_true, if_false]
        exact ih

/-- The inductive invariant for C3: configuration fields, the structural
engine invariant, synthetic keys carry their own insertion number, the
synthetic-keyed records are exactly the captures of the empty-key rows seen
so far in order, and every processed row either inserted a record or was
counted as removed. -/
structure C3Inv (keyCol : String) (allCols : List String) (e : Engine)
    (processed : List Row) : Prop where
  eKey : e.keyColumn = keyCol
  eCols : e.allColumns = allCols
  eIgn : e.ignoreEmpty = true
  base : EngInv e
  synth : ∀ r ∈ e.store, strStartsWith r.key "__EMPTY__#" = true → r.key = synthKey r.order
  exported : (e.store.filter fun r => strStartsWith r.key "__EMPTY__#").map EngRec.values =
    (processed.filter fun row => strCell row keyCol == "").map (capture allCols)
  conserve : e.removed + e.store.length = processed.length

theorem c3_step {keyCol : String} {allCols : List String} {e : Engine} {processed : List Row}
    (inv : C3Inv keyCol allCols e processed) {row : Row}
    (hrow : strStartsWith (strCell row keyCol) "__EMPTY__#" = false) :
    C3Inv keyCol allCols (processRow e row) (processed ++ [row]) := by
  by_cases hkv : strCell row e.keyColumn = ""
  · -- empty dedup key: fresh synthetic key, always inserted
    have hrk : rowKey e row = synthKey (e.orderCounter + 1) := by
      unfold rowKey
      rw [inv.eIgn, hkv]
      simp
    have hfresh : fetchRec e.store (rowKey e row) = none := by
      rw [hrk, fetchRec_eq_none]
      intro r hr heq
      by_cases hpre : strStartsWith r.key "__EMPTY__#" = true
      · have hk2 := inv.synth r hr hpre
        rw [hk2] at heq
        have h3 := synthKey_inj heq
        have h4 := store_order_le inv.base hr
        have h5 := inv.base.counterLen
        omega
      · rw [heq] at hpre
        exact hpre (synthKey_starts _)
    rw [processRow_insert hfresh]
    refine ⟨inv.eKey, inv.eCols, inv.eIgn,
      (by rw [← processRow_insert hfresh]; exact processRow_inv inv.base row), ?_, ?_, ?_⟩
    · intro r hr hpre
      rw [List.mem_append] at hr
      rcases hr with hr | hr
      · exact inv.synth r hr hpre
      · simp only [List.mem_singleton] at hr
        subst hr
        rw [hrk]
    · rw [List.filter_append, List.filter_append, List.map_append, List.map_append]
      have hnew : (strStartsWith (rowKey e row) "__EMPTY__#") = true := by
        rw [hrk]; exact synthKey_starts _
      have hrow2 : (strCell row keyCol == "") = true := by
        rw [← inv.eKey, hkv]; simp
      rw [List.filter_cons, List.filter_cons]
      simp only [hnew, hrow2, if_true, List.filter_nil, List.map_cons, List.map_nil]
      rw [inv.exported, inv.eCols]
    · have := inv.conserve
      simp only [List.length_append, List.length_cons, List.length_nil]
      omega
  · -- non-empty dedup key
    have hrk : rowKey e row = strCell row e.keyColumn := by
      unfold rowKey
      have : (strCell row e.keyColumn == "") = false := by simp [hkv]
      rw [this]
      simp
    have hnotpre : strStartsWith (rowKey e row) "__EMPTY__#" = false := by
      rw [hrk, inv.eKey]
      exact hrow
    have hrow2 : (strCell row keyCol == "") = false := by
      rw [← inv.eKey]; simp [hkv]
    cases hf : fetchRec e.store (rowKey e row) with
    | none =>
      rw [processRow_insert hf]
      refine ⟨inv.eKey, inv.eCols, inv.eIgn,
        (by rw [← processRow_insert hf]; exact processRow_inv inv.base row), ?_, ?_, ?_⟩
      · intro r hr hpre
        rw [List.mem_append] at hr
        rcases hr with hr | hr
        · exact inv.synth r hr hpre
        · simp only [List.mem_singleton] at hr
          subst hr
          rw [hnotpre] at hpre
          exact absurd hpre (by simp)
      · rw [List.filter_append, List.filter_append, List.map_append, List.map_append]
        rw [List.filter_cons, List.filter_cons]
        simp only [hnotpre, hrow2, Bool.false_eq_true, if_false, List.filter_nil,
          List.map_nil, List.append_nil]
        exact inv.exported
      · have := inv.conserve
        simp only [List.length_append, List.length_cons, List.length_nil]
        omega
    | some rec =>
      rw [processRow_dup hf]
      have hrem : (!(e.ignoreEmpty && strCell row e.keyColumn == "")) = true := by
        simp [hkv]
      refine ⟨inv.eKey, inv.eCols, inv.eIgn,
        (by rw [← processRow_dup hf]; exact processRow_inv inv.base row), ?_, ?_, ?_⟩
      · intro r hr hpre
        by_cases hu : (computeUpdates e rec row).isEmpty
        · simp only [hu, if_true] at hr
          exact inv.synth r hr hpre
        · simp only [hu, Bool.false_eq_true, if_false] at hr
          obtain ⟨r0, hr0, hkey0, hord0⟩ := applyUpdate_mem hr
          rw [hkey0, hord0]
          rw [hkey0] at hpre
          exact inv.synth r0 hr0 hpre
      · by_cases hu : (computeUpdates e rec row).isEmpty
        · simp only [hu, if_true]
          rw [List.filter_append, List.map_append]
          rw [List.filter_cons]
          simp only [hrow2, Bool.false_eq_true, if_false, List.filter_nil,
            List.map_nil, List.append_nil]
          exact inv.exported
        · simp only [hu, Bool.false_eq_true, if_false]
          rw [filter_map_values_applyUpdate (fun s => strStartsWith s "__EMPTY__#") hnotpre]
          rw [List.filter_append, List.map_append]
          rw [List.filter_cons]
          simp only [hrow2, Bool.false_eq_true, if_false, List.filter_nil,
            List.map_nil, List.append_nil]
          exact inv.exported
      · have := inv.conserve
        have hlen : (if (computeUpdates e rec row).isEmpty then e.store
            else applyUpdate e.allColumns e.store (rowKey e row)
              (computeUpdates e rec row)).length = e.store.length := by
          by_cases hu : (computeUpdates e rec row).isEmpty
          · rw [if_pos hu]
          · rw [if_neg hu, applyUpdate_length]
        rw [hrem]
        simp only [if_true, hlen, List.length_append, List.length_cons, List.length_nil]
        omega

theorem c3_fold {keyCol : String} {allCols : List String} :
    ∀ (rows : List Row) (e : Engine) (processed : List Row),
      C3Inv keyCol allCols e processed →
      (∀ r ∈ rows, strStartsWith (strCell r keyCol) "__EMPTY__#" = false) →
      C3Inv keyCol allCols (processRows e rows) (processed ++ rows) := by
  intro rows
  induction rows with
  | nil =>
    intro e processed inv _
    simpa using inv
  | cons r rs ih =>
    intro e processed inv hall
    have step := c3_step inv (hall r (by simp))
    have h2 := ih (processRow e r) (processed ++ [r]) step fun q hq => hall q (by simp [hq])
    simpa using h2

/-- C3 as stated is false on the code: the synthetic key namespace can
collide with data keys.  With key column `id`, the input rows
`id="__EMPTY__#2"`, `id=""`, `id=""` leave a single record in the store:
both empty-keyed rows receive the synthetic key `__EMPTY__#2`, find the
literal record, and are silently merged into it, so the two distinct
empty-key rows are not present independently in the export (and are not
counted as removed either). -/
theorem dedup_empty_key_collision_counterexample :
    (([[("id", some "__EMPTY__#2")], [("id", some "")], [("id", some "")]] :
        List Row).filter fun row => strCell row "id" == "").length = 2 ∧
    (processRows (mkEngine "id" ["id"] [] true)
        [[("id", some "__EMPTY__#2")], [("id", some "")], [("id", some "")]]).store.length = 1 ∧
    (processRows (mkEngine "id" ["id"] [] true)
        [[("id", some "__EMPTY__#2")], [("id", some "")], [("id", some "")]]).removed = 0 ∧
    exportRows (processRows (mkEngine "id" ["id"] [] true)
        [[("id", some "__EMPTY__#2")], [("id", some "")], [("id", some "")]]) =
      [["__EMPTY__#2"]] := by
  refine ⟨by decide, by decide, by decide, by decide⟩

/-- C3 amended: provided no dedup-key value in the input starts with
`__EMPTY__#` (the synthetic-key namespace), empty-keyed rows are never
merged: every store key is distinct, the synthetic-keyed records are exactly
the captures of the empty-key rows in input order — each remains an
independent exported row — and `removed` counts exactly the rows that did
not insert a record, so no empty-key row is ever counted as removed. -/
theorem dedup_empty_keys_amended (keyCol : String) (allCols mergeCols : List String)
    (rows : List Row)
    (h2 : ∀ r ∈ rows, strStartsWith (strCell r keyCol) "__EMPTY__#" = false) :
    ((processRows (mkEngine keyCol allCols mergeCols true) rows).store.filter
        fun r => strStartsWith r.key "__EMPTY__#").map EngRec.values =
      (rows.filter fun row => strCell row keyCol == "").map (capture allCols) ∧
    ((processRows (mkEngine keyCol allCols mergeCols true) rows).store.map EngRec.key).Nodup ∧
    (processRows (mkEngine keyCol allCols mergeCols true) rows).removed +
        (processRows (mkEngine keyCol allCols mergeCols true) rows).store.length =
      rows.length ∧
    exportRecords (processRows (mkEngine keyCol allCols mergeCols true) rows) =
      (processRows (mkEngine keyCol allCols mergeCols true) rows).store := by
  have inv0 : C3Inv keyCol allCols (mkEngine keyCol allCols mergeCols true) [] :=
    ⟨rfl, rfl, rfl, mkEngine_inv .., by simp [mkEngine], by simp [mkEngine], by simp [mkEngine]⟩
  have inv := c3_fold rows (mkEngine keyCol allCols mergeCols true) [] inv0 h2
  simp only [List.nil_append] at inv
  exact ⟨inv.exported, inv.base.keysNodup, inv.conserve,
    exportRecords_eq_store inv.base⟩

/-- Witness for C3 amended: two empty-keyed rows among ordinary keys stay
independent rows of the export and are not counted as removed. -/
theorem dedup_empty_keys_amended_witness :
    ((processRows (mkEngine "id" ["id"] [] true)
        [[("id", some "a")], [("id", some "")], [("id", some "")], [("id", some "a")]]).store.filter
        fun r => strStartsWith r.key "__EMPTY__#").map EngRec.values =
      (([[("id", some "a")], [("id", some "")], [("id", some "")], [("id", some "a")]] :
          List Row).filter fun row => strCell row "id" == "").map (capture ["id"]) ∧
    (processRows (mkEngine "id" ["id"] [] true)
        [[("id", some "a")], [("id", some "")], [("id", some "")], [("id", some "a")]]).removed +
        (processRows (mkEngine "id" ["id"] [] true)
          [[("id", some "a")], [("id", some "")], [("id", some "")],
           [("id", some "a")]]).store.length = 4 :=
  ⟨(dedup_empty_keys_amended "id" ["id"] [] [[("id", some "a")], [("id", some "")],
      [("id", some "")], [("id", some "a")]] (by decide)).1,
   (dedup_empty_keys_amended "id" ["id"] [] [[("id", some "a")], [("id", some "")],
      [("id", some "")], [("id", some "a")]] (by decide)).2.2.1⟩

/-! ### C8: deduplication is idempotent

Re-feeding the engine's export through a fresh engine with the same key
column inserts every row afresh: each exported record's key-column value
determines the very key it was stored under (or, for empty values, the
synthetic key matching its position), and store keys are pairwise distinct.
-/

theorem lookup_zip_map (f : String → String) :
    ∀ (A : List String) (c : String), c ∈ A →
      List.lookup c (A.zip (A.map f)) = some (f c) := by
  intro A
  induction A with
  | nil => intro c hc; simp at hc
  | cons a as ih =>
    intro c hc
    rw [List.map_cons, List.zip_cons_cons]
    by_cases h : c = a
    · subst h
      simp [List.lookup]
    · have hb : (c == a) = false := by simp [h]
      simp only [List.lookup, hb]
      refine ih c ?_
      rcases List.mem_cons.mp hc with h2 | h2
      · exact absurd h2 h
      · exact h2

theorem recGet_capture {A : List String} {row : Row} {c : String} (hc : c ∈ A) :
    recGet A (capture A row) c = strCell row c := by
  unfold recGet capture
  rw [lookup_zip_map (fun c => strCell row c) A c hc]
  rfl

/-- Rebuild a pandas row from one exported data row: every cell is a string
(the exported frame has dtype str and no NaN). -/
def rowOfValues (cols vs : List String) : Row :=
  (cols.zip vs).map fun p => (p.1, some p.2)

theorem lookup_map_some : ∀ (l : List (String × String)) (c : String),
    List.lookup c (l.map fun p => (p.1, some p.2)) = (List.lookup c l).map some := by
  intro l
  induction l with
  | nil => intro c; rfl
  | cons p ps ih =>
    intro c
    obtain ⟨k, v⟩ := p
    by_cases h : c = k
    · subst h
      simp [List.lookup]
    · have hb : (c == k) = false := by simp [h]
      simp only [List.map_cons, List.lookup, hb]
      exact ih c

theorem strCell_rowOfValues (cols vs : List String) (c : String) :
    strCell (rowOfValues cols vs) c = recGet cols vs c := by
  unfold strCell getCell rowOfValues recGet
  rw [lookup_map_some]
  cases List.lookup c (cols.zip vs) <;> rfl

theorem map_recGet_self : ∀ (A vs : List String), A.Nodup → vs.length = A.length →
    (A.map fun c => recGet A vs c) = vs := by
  intro A
  induction A with
  | nil =>
    intro vs _ hlen
    have hv : vs = [] := List.length_eq_zero.mp (by simpa using hlen)
    subst hv
    rfl
  | cons a as ih =>
    intro vs hnd hlen
    cases vs with
    | nil => simp at hlen
    | cons v vs2 =>
      rw [List.map_cons]
      have hhead : recGet (a :: as) (v :: vs2) a = v := by
        unfold recGet
        rw [List.zip_cons_cons]
        simp [List.lookup]
      rw [hhead]
      rw [List.nodup_cons] at hnd
      have htail : (as.map fun c => recGet (a :: as) (v :: vs2) c) =
          as.map fun c => recGet as vs2 c := by
        apply List.map_congr_left
        intro c hc
        have hca : (c == a) = false := by
          simp only [beq_eq_false_iff_ne, ne_eq]
          intro h
          exact hnd.1 (h ▸ hc)
        unfold recGet
        rw [List.zip_cons_cons]
        simp only [List.lookup, hca]
      rw [htail, ih vs2 hnd.2 (by simpa using hlen)]

theorem capture_rowOfValues {A vs : List String} (hnd : A.Nodup)
    (hlen : vs.length = A.length) : capture A (rowOfValues A vs) = vs := by
  unfold capture
  calc (A.map fun c => strCell (rowOfValues A vs) c)
      = A.map fun c => recGet A vs c := by
        apply List.map_congr_left
        intro c _
        exact strCell_rowOfValues A vs c
    _ = vs := map_recGet_self A vs hnd hlen

/-- Key-column/value invariant of a run with `ignore_empty = True`: a stored
record's key-column value either is non-empty and equals the store key, or is
empty and the store key is the synthetic key carrying the record's own
insertion number. -/
def KVInv (e : Engine) : Prop := ∀ r ∈ e.store,
  (recGet e.allColumns r.values e.keyColumn ≠ "" ∧
    recGet e.allColumns r.values e.keyColumn = r.key) ∨
  (recGet e.allColumns r.values e.keyColumn = "" ∧ r.key = synthKey r.order)

theorem processRow_kv {e : Engine} (hk : e.keyColumn ∈ e.allColumns)
    (hig : e.ignoreEmpty = true) (hmc : e.keyColumn ∉ e.mergeColumns)
    (hkv : KVInv e) (row : Row) : KVInv (processRow e row) := by
  cases hf : fetchRec e.store (rowKey e row) with
  | none =>
    rw [processRow_insert hf]
    intro r hr
    rw [List.mem_append] at hr
    rcases hr with hr | hr
    · exact hkv r hr
    · simp only [List.mem_singleton] at hr
      subst hr
      show (recGet e.allColumns (capture e.allColumns row) e.keyColumn ≠ "" ∧
          recGet e.allColumns (capture e.allColumns row) e.keyColumn = rowKey e row) ∨
        (recGet e.allColumns (capture e.allColumns row) e.keyColumn = "" ∧
          rowKey e row = synthKey (e.orderCounter + 1))
      rw [recGet_capture hk]
      by_cases hempty : strCell row e.keyColumn = ""
      · refine Or.inr ⟨hempty, ?_⟩
        unfold rowKey
        rw [hig, hempty]
        simp
      · refine Or.inl ⟨hempty, ?_⟩
        unfold rowKey
        have hb : (strCell row e.keyColumn == "") = false := by simp [hempty]
        rw [hb]
        simp
  | some rec =>
    rw [processRow_dup hf]
    intro r hr
    by_cases hu : (computeUpdates e rec row).isEmpty
    · simp only [hu, if_true] at hr
      exact hkv r hr
    · simp only [hu, Bool.false_eq_true, if_false, applyUpdate, List.mem_map] at hr
      obtain ⟨r0, hr0, hrr⟩ := hr
      subst hrr
      have hlook : List.lookup e.keyColumn (computeUpdates e rec row) = none :=
        lookup_eq_none_of_keys_mem (computeUpdates_mem e rec row) hmc
      by_cases hm : r0.key = rowKey e row
      · have hb : (r0.key == rowKey e row) = true := by simp [hm]
        simp only [hb, if_true]
        show (recGet e.allColumns (updateRec e.allColumns (computeUpdates e rec row)
              r0).values e.keyColumn ≠ "" ∧ _) ∨ _
        rw [recGet_updateRec_eq hlook]
        simpa only [updateRec_key, updateRec_order] using hkv r0 hr0
      · have hb : (r0.key == rowKey e row) = false := by simp [hm]
        simp only [hb, Bool.false_eq_true, if_false]
        exact hkv r0 hr0

theorem processRows_kv : ∀ (rows : List Row) (e : Engine),
    e.keyColumn ∈ e.allColumns → e.ignoreEmpty = true → e.keyColumn ∉ e.mergeColumns →
    KVInv e → KVInv (processRows e rows) := by
  intro rows
  induction rows with
  | nil => intro e _ _ _ h; exact h
  | cons r rs ih =>
    intro e hk hig hmc hkv
    have hcfg := processRow_cfg e r
    exact ih (processRow e r) (by rw [hcfg.1, hcfg.2.1]; exact hk)
      (by rw [hcfg.2.2.2]; exact hig)
      (by rw [hcfg.1, hcfg.2.2.1]; exact hmc)
      (processRow_kv hk hig hmc hkv r)

theorem order_head_extract {done : List EngRec} {t : EngRec} {todo : List EngRec}
    (h : (done ++ t :: todo).map EngRec.order =
      List.range' 1 (done ++ t :: todo).length) :
    t.order = done.length + 1 := by
  have h2 := congrArg (fun l => l[done.length]?) h
  simp only at h2
  rw [List.getElem?_map, List.getElem?_append_right (le_refl done.length)] at h2
  simp only [Nat.sub_self, List.getElem?_cons_zero, Option.map_some] at h2
  have hlen : done.length < (done ++ t :: todo).length := by simp
  rw [List.getElem?_eq_getElem (by simpa using hlen), List.getElem_range'] at h2
  have := Option.some.inj h2
  omega

theorem rowKey_true_empty {e : Engine} {row : Row} (hig : e.ignoreEmpty = true)
    (h : strCell row e.keyColumn = "") : rowKey e row = synthKey (e.orderCounter + 1) := by
  unfold rowKey
  rw [hig, h]
  simp

theorem rowKey_nonempty {e : Engine} {row : Row} (h : ¬ strCell row e.keyColumn = "") :
    rowKey e row = strCell row e.keyColumn := by
  unfold rowKey
  have hb : (strCell row e.keyColumn == "") = false := by simp [h]
  rw [hb]
  simp

theorem rerun_go (keyCol : String) (allCols M2 : List String) (hk : keyCol ∈ allCols)
    (hnd : allCols.Nodup) :
    ∀ (todo done : List EngRec),
      ((done ++ todo).map EngRec.key).Nodup →
      ((done ++ todo).map EngRec.order = List.range' 1 (done ++ todo).length) →
      (∀ r ∈ done ++ todo, r.values.length = allCols.length) →
      (∀ r ∈ done ++ todo,
        (recGet allCols r.values keyCol ≠ "" ∧ recGet allCols r.values keyCol = r.key) ∨
        (recGet allCols r.values keyCol = "" ∧ r.key = synthKey r.order)) →
      processRows (⟨keyCol, allCols, M2, true, done.length, 0, done⟩ : Engine)
        (todo.map fun r => rowOfValues allCols r.values) =
      (⟨keyCol, allCols, M2, true, (done ++ todo).length, 0, done ++ todo⟩ : Engine) := by
  intro todo
  induction todo with
  | nil =>
    intro done _ _ _ _
    simp [processRows]
  | cons t todo2 ih =>
    intro done hnodup horder hvlen hkv
    have ht : t ∈ done ++ t :: todo2 := by simp
    have htord : t.order = done.length + 1 := order_head_extract horder
    have hkval : strCell (rowOfValues allCols t.values)
        (⟨keyCol, allCols, M2, true, done.length, 0, done⟩ : Engine).keyColumn =
        recGet allCols t.values keyCol :=
      strCell_rowOfValues allCols t.values keyCol
    have hrk : rowKey (⟨keyCol, allCols, M2, true, done.length, 0, done⟩ : Engine)
        (rowOfValues allCols t.values) = t.key := by
      rcases hkv t ht with ⟨hne, heq⟩ | ⟨hemp, hkey⟩
      · rw [rowKey_nonempty (by rw [hkval]; exact hne), hkval, heq]
      · rw [rowKey_true_empty rfl (by rw [hkval]; exact hemp)]
        show synthKey (done.length + 1) = t.key
        rw [hkey, htord]
    have hfetch : fetchRec (⟨keyCol, allCols, M2, true, done.length, 0, done⟩ : Engine).store
        (rowKey (⟨keyCol, allCols, M2, true, done.length, 0, done⟩ : Engine)
          (rowOfValues allCols t.values)) = none := by
      rw [hrk, fetchRec_eq_none_iff]
      have hsplit := hnodup
      rw [List.map_append, List.nodup_append] at hsplit
      intro hmem
      exact hsplit.2.2 hmem (by simp)
    have hrec : (⟨rowKey (⟨keyCol, allCols, M2, true, done.length, 0, done⟩ : Engine)
          (rowOfValues allCols t.values),
        (⟨keyCol, allCols, M2, true, done.length, 0, done⟩ : Engine).orderCounter + 1,
        capture (⟨keyCol, allCols, M2, true, done.length, 0, done⟩ : Engine).allColumns
          (rowOfValues allCols t.values)⟩ : EngRec) = t := by
      have hcap : capture allCols (rowOfValues allCols t.values) = t.values :=
        capture_rowOfValues hnd (hvlen t ht)
      cases t with
      | mk tk tord tv =>
        simp only [EngRec.mk.injEq]
        refine ⟨hrk, ?_, hcap⟩
        simpa using htord.symm
    have hstep : processRow (⟨keyCol, allCols, M2, true, done.length, 0, done⟩ : Engine)
        (rowOfValues allCols t.values) =
        (⟨keyCol, allCols, M2, true, (done ++ [t]).length, 0, done ++ [t]⟩ : Engine) := by
      rw [processRow_insert hfetch, hrec]
      have hlen2 : (done ++ [t]).length = done.length + 1 := by simp
      rw [hlen2]
    have hassoc : (done ++ [t]) ++ todo2 = done ++ t :: todo2 := by simp
    show processRows (⟨keyCol, allCols, M2, true, done.length, 0, done⟩ : Engine)
        ((t :: todo2).map fun r => rowOfValues allCols r.values) = _
    rw [List.map_cons]
    show processRows (processRow (⟨keyCol, allCols, M2, true, done.length, 0, done⟩ : Engine)
        (rowOfValues allCols t.values)) (todo2.map fun r => rowOfValues allCols r.values) = _
    rw [hstep]
    have happly := ih (done ++ [t]) (by rw [hassoc]; exact hnodup)
      (by rw [hassoc]; exact horder) (by rw [hassoc]; exact hvlen)
      (by rw [hassoc]; exact hkv)
    rw [hassoc] at happly
    exact happly

/-- C8: idempotence.  Feeding the engine's own export through a fresh engine
with the same key column (and key column among the frame's pairwise distinct
columns, as a CSV header provides) removes zero rows and exports exactly the
same rows in the same order, for any merge-column configurations of the two
engines. -/
theorem dedup_idempotent (keyCol : String) (allCols M1 M2 : List String) (rows : List Row)
    (hk : keyCol ∈ allCols) (hnd : allCols.Nodup) :
    (processRows (mkEngine keyCol allCols M2 true)
        ((exportRows (processRows (mkEngine keyCol allCols M1 true) rows)).map
          (rowOfValues allCols))).removed = 0 ∧
    exportRows (processRows (mkEngine keyCol allCols M2 true)
        ((exportRows (processRows (mkEngine keyCol allCols M1 true) rows)).map
          (rowOfValues allCols))) =
      exportRows (processRows (mkEngine keyCol allCols M1 true) rows) := by
  have hinv : EngInv (processRows (mkEngine keyCol allCols M1 true) rows) :=
    processRows_inv (mkEngine_inv ..) rows
  have hcfg := processRows_cfg rows (mkEngine keyCol allCols M1 true)
  have hkv : KVInv (processRows (mkEngine keyCol allCols M1 true) rows) :=
    processRows_kv rows (mkEngine keyCol allCols M1 true) hk rfl
      (mkEngine_key_not_merge keyCol allCols M1 true)
      (fun r hr => absurd hr (by simp [mkEngine]))
  have hkv2 : ∀ r ∈ (processRows (mkEngine keyCol allCols M1 true) rows).store,
      (recGet allCols r.values keyCol ≠ "" ∧ recGet allCols r.values keyCol = r.key) ∨
      (recGet allCols r.values keyCol = "" ∧ r.key = synthKey r.order) := by
    intro r hr
    have h0 := hkv r hr
    rw [hcfg.2.1, hcfg.1] at h0
    exact h0
  have hvlen : ∀ r ∈ (processRows (mkEngine keyCol allCols M1 true) rows).store,
      r.values.length = allCols.length := by
    intro r hr
    have h0 := hinv.valuesLen r hr
    rwa [hcfg.2.1] at h0
  have hinput : (exportRows (processRows (mkEngine keyCol allCols M1 true) rows)).map
      (rowOfValues allCols) =
      (processRows (mkEngine keyCol allCols M1 true) rows).store.map
        fun r => rowOfValues allCols r.values := by
    unfold exportRows
    rw [exportRecords_eq_store hinv, List.map_map]
    rfl
  have hrun := rerun_go keyCol allCols ((mkEngine keyCol allCols M2 true).mergeColumns) hk hnd
    (processRows (mkEngine keyCol allCols M1 true) rows).store []
    (by simpa using hinv.keysNodup) (by simpa using hinv.orders)
    (by simpa using hvlen) (by simpa using hkv2)
  have hrun2 : processRows (mkEngine keyCol allCols M2 true)
      ((processRows (mkEngine keyCol allCols M1 true) rows).store.map
        fun r => rowOfValues allCols r.values) =
      (⟨keyCol, allCols, (mkEngine keyCol allCols M2 true).mergeColumns, true,
        ([] ++ (processRows (mkEngine keyCol allCols M1 true) rows).store).length, 0,
        [] ++ (processRows (mkEngine keyCol allCols M1 true) rows).store⟩ : Engine) := hrun
  refine ⟨?_, ?_⟩
  · rw [hinput, hrun2]
  · rw [hinput, hrun2]
    unfold exportRows exportRecords
    simp only [List.nil_append]

/-- Witness for C8 on a concrete run with duplicates and an empty key. -/
theorem dedup_idempotent_witness :
    (processRows (mkEngine "id" ["id", "email"] ["email"] true)
        ((exportRows (processRows (mkEngine "id" ["id", "email"] ["email"] true)
          [[("id", some "1"), ("email", some "a")],
           [("id", some "1"), ("email", some "b")],
           [("id", some ""), ("email", some "c")]])).map
          (rowOfValues ["id", "email"]))).removed = 0 ∧
    exportRows (processRows (mkEngine "id" ["id", "email"] ["email"] true)
        ((exportRows (processRows (mkEngine "id" ["id", "email"] ["email"] true)
          [[("id", some "1"), ("email", some "a")],
           [("id", some "1"), ("email", some "b")],
           [("id", some ""), ("email", some "c")]])).map
          (rowOfValues ["id", "email"]))) =
      exportRows (processRows (mkEngine "id" ["id", "email"] ["email"] true)
        [[("id", some "1"), ("email", some "a")],
         [("id", some "1"), ("email", some "b")],
         [("id", some ""), ("email", some "c")]]) :=
  dedup_idempotent "id" ["id", "email"] ["email"] ["email"]
    [[("id", some "1"), ("email", some "a")],
     [("id", some "1"), ("email", some "b")],
     [("id", some ""), ("email", some "c")]] (by decide) (by decide)

/-! ## `run_pipeline` (core/pipeline/runner.py)

The orchestration loop, embedded with explicit state.  Rule callables are
cell-wise transforms resolved through an abstract registry (every registered
rule maps a series cell-wise; the statistics returned by "advanced" rules are
discarded by the runner, which recomputes its own).  The example-index
selection `_pick_diverse` uses float arithmetic, so it is a parameter of the
configuration: every theorem below holds for any selection function.
Wall-clock fields of progress payloads (elapsed, rps) are not modelled. -/

/-- Keyword parameters of one rule invocation. -/
abbrev Params : Type := List (String × String)

/-- One entry of a column's rule list: a YAML mapping of rule name to
parameters; well-formed exactly when it has one key. -/
abbrev RuleStep : Type := List (String × Params)

/-- A resolved rule: a cell-wise transform of the column. -/
abbrev CellFn : Type := Option String → Option String

/-- One reader batch: the frame's columns and rows. -/
structure Frame where
  cols : List String
  rows : List Row

/-- Fatal configuration errors raised inside the chunk loop. -/
inductive RunError where
  | badRuleFormat (col : String)
  | unknownRule (name : String)
  deriving DecidableEq

/-- One entry of a column's example list in the report. -/
structure ExampleRec where
  rowIdx : Nat
  before : String
  after : String
  note : String
  deriving DecidableEq

/-- Per-column accumulated statistics of the report. -/
structure ColStats where
  changed : Nat
  cleared : Nat
  initialEmpty : Nat
  examples : List ExampleRec
  deriving DecidableEq

/-- One progress-callback payload (wall-clock fields omitted). -/
structure PEvent where
  phase : String
  rowsDone : Nat
  percent : Option Nat
  deriving DecidableEq

/-- Everything `run_pipeline` computes apart from progress events. -/
structure RunCore where
  rowsTotal : Nat
  writtenDirect : List (List String)
  writtenExport : List (List String)
  colsStats : List (String × ColStats)
  filterRemoved : Nat
  engine : Option Engine
  dedupConsumed : Nat
  dedupRemoved : Nat
  err : Option RunError
  deriving DecidableEq

/-- Full run state: results plus the progress events delivered so far. -/
structure RunState where
  core : RunCore
  events : List PEvent

/-- The run configuration (`run_pipeline` keyword arguments plus profile). -/
structure RunCfg where
  columnsCfg : List (String × List RuleStep)
  registry : String → Params → Option CellFn
  minLengthEnabled : Bool
  minLengthValue : Nat
  minLengthCols : List String
  rowFilterEnabled : Bool
  rowFilterSubset : List String
  dedupEnabled : Bool
  dedupSubset : List String
  dedupMergeCols : List String
  pick : List Nat → Nat → List Nat
  rowsEstimate : Option Nat

/-- `chunk[col_name] = series`: write a transformed cell back into a row. -/
def setCell (r : Row) (c : String) (v : Option String) : Row :=
  r.map fun p => if p.1 = c then (p.1, v) else p

/-- `key_col = (dedup_subset or [None])[0]`, with falsy values dropped. -/
def keyColOf (cfg : RunCfg) : Option String :=
  match cfg.dedupSubset with
  | [] => none
  | k :: _ => if k = "" then none else some k

/-- `summary["dedup"]["enabled"] = bool(dedup_enabled and key_col)`. -/
def dedupOn (cfg : RunCfg) : Bool :=
  cfg.dedupEnabled && (keyColOf cfg).isSome

/-- `bool(row_filter_one_filled_enabled and (row_filter_subset or []))`. -/
def rowFilterOn (cfg : RunCfg) : Bool :=
  cfg.rowFilterEnabled && !cfg.rowFilterSubset.isEmpty

/-- `OneFilledRowFilter.apply`: keep rows with strictly more than one
non-empty cell among the configured columns present in the frame. -/
def oneFilledApply (subset cols : List String) (rows : List Row) : List Row :=
  if subset.isEmpty then rows
  else
    let present := subset.filter fun c => cols.contains c
    if present.isEmpty then rows
    else rows.filter fun r => 1 < (present.filter fun c => strCell r c != "").length

/-- The per-column rule chain: validate each step (exactly one rule name),
resolve it in the registry, and thread the column through. -/
def applySteps (cfg : RunCfg) (col : String) :
    List RuleStep → List (Option String) → Except RunError (List (Option String))
  | [], cells => .ok cells
  | step :: rest, cells =>
    match step with
    | [(name, params)] =>
      match cfg.registry name params with
      | none => .error (.unknownRule name)
      | some f => applySteps cfg col rest (cells.map f)
    | _ => .error (.badRuleFormat col)

/-- `_series_as_stripped`: string representation with trim, `NaN` as `""`. -/
def trimmedCol (rows : List Row) (col : String) : List String :=
  rows.map fun r => pyStrip (strCell r col)

/-- Candidate row indices (global, `base` + position) where the mask holds. -/
def candIdx (base : Nat) (mask : List Bool) : List Nat :=
  (((List.range mask.length).zip mask).filter fun p => p.2).map fun p => base + p.1

/-- The `kn`/`kc` balancing arithmetic of the example selection
(`EXAMPLES_LIMIT = 25`, `half = 12`). -/
def exampleCounts (nNorm nClr : Nat) : Nat × Nat :=
  let half := 12
  let kn := min half nNorm
  let kc := min (25 - kn) nClr
  let kc := if kn < half then kc + min (25 - (kn + kc)) (nClr - kc) else kc
  let kn := if kc < 13 then kn + min (25 - (kn + kc)) (nNorm - kn) else kn
  (kn, kc)

/-- Build the example records for one column and chunk. -/
def mkExamples (pick : List Nat → Nat → List Nat) (base : Nat)
    (before after : List String) (normC clrC : List Nat) : List ExampleRec :=
  let kn := (exampleCounts normC.length clrC.length).1
  let kc := (exampleCounts normC.length clrC.length).2
  let exsN : List ExampleRec := (pick normC kn).map fun i =>
    { rowIdx := i, before := before.getD (i - base) "",
      after := after.getD (i - base) "", note := "normalized" }
  let exsC : List ExampleRec := (pick clrC kc).map fun i =>
    { rowIdx := i, before := before.getD (i - base) "", after := "", note := "cleared" }
  (exsN ++ exsC).take 25

/-- Fold one chunk's contribution into a column's accumulated statistics,
capping the example list at 25. -/
def addStats (old : ColStats) (changed cleared initEmpty : Nat)
    (exs : List ExampleRec) : ColStats :=
  { changed := old.changed + changed, cleared := old.cleared + cleared,
    initialEmpty := old.initialEmpty + initEmpty,
    examples := old.examples ++ exs.take (25 - old.examples.length) }

/-- Insert-or-update a column's statistics, preserving first-seen order. -/
def upsertStats : List (String × ColStats) → String → Nat → Nat → Nat →
    List ExampleRec → List (String × ColStats)
  | [], col, ch, cl, ie, exs => [(col, addStats ⟨0, 0, 0, []⟩ ch cl ie exs)]
  | (c, st) :: rest, col, ch, cl, ie, exs =>
    if c = col then (c, addStats st ch cl ie exs) :: rest
    else (c, st) :: upsertStats rest col ch cl ie exs

/-- Process one configured column on one chunk: skip if the column is absent,
otherwise apply the rule chain and the optional minimum-length pass, write the
column back, and accumulate the before/after statistics. -/
def processColumn (cfg : RunCfg) (base : Nat) (cols : List String) (rows : List Row)
    (colName : String) (steps : List RuleStep) (stats : List (String × ColStats)) :
    Except RunError (List Row × List (String × ColStats)) :=
  if ¬ cols.contains colName then .ok (rows, stats)
  else
    let before := trimmedCol rows colName
    match applySteps cfg colName steps (rows.map fun r => getCell r colName) with
    | .error e => .error e
    | .ok cells0 =>
      let cells := if cfg.minLengthEnabled && !cfg.minLengthCols.isEmpty &&
          cfg.minLengthCols.contains colName
        then cells0.map (minLengthApplyCell cfg.minLengthValue) else cells0
      let rows2 := List.zipWith (fun r c => setCell r colName c) rows cells
      let after := trimmedCol rows2 colName
      let pairs := before.zip after
      let changed := pairs.countP fun p => p.1 != p.2
      let cleared := pairs.countP fun p => p.1 != "" && p.2 == ""
      let initEmpty := before.countP fun b => b == ""
      let normC := candIdx base (pairs.map fun p => p.1 != p.2 && p.2 != "")
      let clrC := candIdx base (pairs.map fun p => p.1 != "" && p.2 == "")
      let exs := mkExamples cfg.pick base before after normC clrC
      .ok (rows2, upsertStats stats colName changed cleared initEmpty exs)

/-- The per-chunk loop over the profile's configured columns, in order. -/
def columnPhase (cfg : RunCfg) (base : Nat) (cols : List String) :
    List (String × List RuleStep) → List Row → List (String × ColStats) →
    Except RunError (List Row × List (String × ColStats))
  | [], rows, stats => .ok (rows, stats)
  | (colName, steps) :: rest, rows, stats =>
    match processColumn cfg base cols rows colName steps stats with
    | .error e => .error e
    | .ok (rows2, stats2) => columnPhase cfg base cols rest rows2 stats2

/-- Serialize rows the way `CsvIncrementalWriter.write_chunk` renders them. -/
def serializeRows (cols : List String) (rows : List Row) : List (List String) :=
  rows.map fun r => cols.map fun c => strCell r c

/-- `chunk, rstats = row_filter.apply(chunk)` when the filter is active,
else the chunk unchanged. -/
def keptRows (cfg : RunCfg) (cols : List String) (rows2 : List Row) : List Row :=
  if rowFilterOn cfg then oneFilledApply cfg.rowFilterSubset cols rows2 else rows2

/-- The engine used for this chunk: the existing one, or a fresh
`DedupMergeEngine` over this chunk's columns on first use. -/
def engineOf (cfg : RunCfg) (st0 : RunCore) (fr : Frame) : Engine :=
  match st0.engine with
  | some eng => eng
  | none => mkEngine ((keyColOf cfg).getD "") fr.cols cfg.dedupMergeCols true

/-- One chunk through steps 1-4 of the runner loop (rules, statistics, row
filter, dedup-or-write). -/
def coreChunk (cfg : RunCfg) (st0 : RunCore) (fr : Frame) : RunCore :=
  match columnPhase cfg st0.rowsTotal fr.cols cfg.columnsCfg fr.rows st0.colsStats with
  | .error e => { st0 with rowsTotal := st0.rowsTotal + fr.rows.length, err := some e }
  | .ok (rows2, stats2) =>
    if dedupOn cfg then
      { st0 with
        rowsTotal := st0.rowsTotal + fr.rows.length,
        colsStats := stats2,
        filterRemoved := st0.filterRemoved +
          (rows2.length - (keptRows cfg fr.cols rows2).length),
        engine := some (processRows (engineOf cfg st0 fr) (keptRows cfg fr.cols rows2)),
        dedupConsumed := st0.dedupConsumed + (keptRows cfg fr.cols rows2).length }
    else
      { st0 with
        rowsTotal := st0.rowsTotal + fr.rows.length,
        colsStats := stats2,
        filterRemoved := st0.filterRemoved +
          (rows2.length - (keptRows cfg fr.cols rows2).length),
        writtenDirect := st0.writtenDirect ++
          serializeRows fr.cols (keptRows cfg fr.cols rows2) }

/-- The percent field of a processing progress payload. -/
def pctOf (est : Option Nat) (rowsDone : Nat) : Option Nat :=
  match est with
  | some n => if 0 < n then some (min 100 (rowsDone * 100 / n)) else none
  | none => none

/-- The percent field of the start payload (`0 if rows_total_estimate else None`). -/
def startPct (est : Option Nat) : Option Nat :=
  match est with
  | some n => if n ≠ 0 then some 0 else none
  | none => none

/-- One loop iteration: process the chunk and, when a callback is supplied
and the chunk completed, deliver one `processing` event. -/
def runStep (cfg : RunCfg) (cb : Bool) (st : RunState) (fr : Frame) : RunState :=
  if st.core.err.isSome then st
  else
    let c2 := coreChunk cfg st.core fr
    { core := c2,
      events := st.events ++
        (if cb && c2.err.isNone then [⟨"processing", c2.rowsTotal,
          pctOf cfg.rowsEstimate c2.rowsTotal⟩] else []) }

/-- The state before the chunk loop: empty accumulators, plus the start
event when a callback is supplied. -/
def initState (cfg : RunCfg) (cb : Bool) : RunState :=
  { core := ⟨0, [], [], [], 0, none, 0, 0, none⟩,
    events := if cb then [⟨"start", 0, startPct cfg.rowsEstimate⟩] else [] }

/-- The post-loop phase: on success, write the dedup export and record the
removed count, then deliver the done event; on a fatal error the exception
propagates and nothing further happens. -/
def finishRun (cfg : RunCfg) (cb : Bool) (st : RunState) : RunState :=
  match st.core.err with
  | some _ => st
  | none =>
    { core := (match st.core.engine with
        | some eng =>
          { st.core with writtenExport := exportRows eng, dedupRemoved := eng.removed }
        | none => st.core),
      events := st.events ++ (if cb then [⟨"done",
        (match st.core.engine with
          | some eng =>
            { st.core with writtenExport := exportRows eng, dedupRemoved := eng.removed }
          | none => st.core).rowsTotal, some 100⟩] else []) }

/-- `run_pipeline`: start event, chunk loop, then (on success) the dedup
export and the done event.  `cb` is whether a progress callback was supplied;
in this embedding callbacks are pure observers, so only the recorded event
list depends on it. -/
def runPipelineM (cfg : RunCfg) (cb : Bool) (chunks : List Frame) : RunState :=
  finishRun cfg cb (chunks.foldl (runStep cfg cb) (initState cfg cb))

/-! ### C5: row-count conservation -/

theorem applySteps_ok_length (cfg : RunCfg) (col : String) :
    ∀ (steps : List RuleStep) (cells cells2 : List (Option String)),
      applySteps cfg col steps cells = .ok cells2 → cells2.length = cells.length := by
  intro steps
  induction steps with
  | nil =>
    intro cells cells2 h
    cases h
    rfl
  | cons s rest ih =>
    intro cells cells2 h
    cases s with
    | nil => exact absurd h (by simp [applySteps])
    | cons p t =>
      cases t with
      | nil =>
        obtain ⟨n, prm⟩ := p
        cases hr : cfg.registry n prm with
        | none => rw [applySteps, hr] at h; exact absurd h (by simp)
        | some f =>
          rw [applySteps, hr] at h
          rw [ih (cells.map f) cells2 h]
          simp
      | cons q t2 => exact absurd h (by simp [applySteps])

theorem processColumn_ok_length {cfg : RunCfg} {base : Nat} {cols : List String}
    {rows : List Row} {colName : String} {steps : List RuleStep}
    {stats : List (String × ColStats)} {rows2 : List Row} {stats2 : List (String × ColStats)}
    (h : processColumn cfg base cols rows colName steps stats = .ok (rows2, stats2)) :
    rows2.length = rows.length := by
  unfold processColumn at h
  by_cases hc : ¬ cols.contains colName
  · rw [if_pos hc] at h
    cases h
    rfl
  · rw [if_neg hc] at h
    cases happ : applySteps cfg colName steps (rows.map fun r => getCell r colName) with
    | error e => rw [happ] at h; exact absurd h (by simp)
    | ok cells0 =>
      rw [happ] at h
      have hlen0 : cells0.length = rows.length := by
        rw [applySteps_ok_length cfg colName steps _ _ happ]
        simp
      have h2 := congrArg Prod.fst (Except.ok.inj h)
      simp only at h2
      rw [← h2]
      by_cases hml : cfg.minLengthEnabled && !cfg.minLengthCols.isEmpty &&
          cfg.minLengthCols.contains colName
      · simp only [hml, if_true, List.length_zipWith, List.length_map, hlen0]
        omega
      · simp only [hml, Bool.false_eq_true, if_false, List.length_zipWith, hlen0]
        omega

theorem columnPhase_ok_length {cfg : RunCfg} {base : Nat} {cols : List String} :
    ∀ {entries : List (String × List RuleStep)} {rows : List Row}
      {stats : List (String × ColStats)} {rows2 : List Row} {stats2 : List (String × ColStats)},
      columnPhase cfg base cols entries rows stats = .ok (rows2, stats2) →
      rows2.length = rows.length := by
  intro entries
  induction entries with
  | nil =>
    intro rows stats rows2 stats2 h
    cases h
    rfl
  | cons p rest ih =>
    intro rows stats rows2 stats2 h
    obtain ⟨c0, s0⟩ := p
    cases hpc : processColumn cfg base cols rows c0 s0 stats with
    | error e => rw [columnPhase, hpc] at h; exact absurd h (by simp)
    | ok pair =>
      obtain ⟨rowsM, statsM⟩ := pair
      rw [columnPhase, hpc] at h
      rw [ih h, processColumn_ok_length hpc]

theorem keptRows_le (cfg : RunCfg) (cols : List String) (rows2 : List Row) :
    (keptRows cfg cols rows2).length ≤ rows2.length := by
  unfold keptRows
  by_cases hrf : rowFilterOn cfg = true
  · rw [if_pos hrf]
    unfold oneFilledApply
    by_cases h1 : cfg.rowFilterSubset.isEmpty = true
    · rw [if_pos h1]
    · rw [if_neg h1]
      by_cases h2 : (cfg.rowFilterSubset.filter fun c => cols.contains c).isEmpty = true
      · rw [if_pos h2]
      · rw [if_neg h2]
        exact List.length_filter_le _ _
  · rw [if_neg hrf]

/-- The conservation equation the amended C5 states. -/
def consEq (c : RunCore) : Prop :=
  c.rowsTotal = c.writtenDirect.length + c.dedupConsumed + c.filterRemoved

theorem coreChunk_error {cfg : RunCfg} {st0 : RunCore} {fr : Frame} {e : RunError}
    (h : columnPhase cfg st0.rowsTotal fr.cols cfg.columnsCfg fr.rows st0.colsStats =
      .error e) :
    coreChunk cfg st0 fr =
      { st0 with rowsTotal := st0.rowsTotal + fr.rows.length, err := some e } := by
  unfold coreChunk
  rw [h]

theorem coreChunk_conserve {cfg : RunCfg} {st0 : RunCore} {fr : Frame} (h : consEq st0)
    (hne : (coreChunk cfg st0 fr).err = none) : consEq (coreChunk cfg st0 fr) := by
  cases hcp : columnPhase cfg st0.rowsTotal fr.cols cfg.columnsCfg fr.rows st0.colsStats with
  | error e =>
    rw [coreChunk_error hcp] at hne
    exact absurd hne (by simp)
  | ok pair =>
    obtain ⟨rows2, stats2⟩ := pair
    have hlen2 : rows2.length = fr.rows.length := columnPhase_ok_length hcp
    have hkle := keptRows_le cfg fr.cols rows2
    unfold coreChunk
    rw [hcp]
    unfold consEq at h ⊢
    by_cases hd : dedupOn cfg
    · simp only [hd, if_true]
      omega
    · simp only [hd, Bool.false_eq_true, if_false, List.length_append]
      unfold serializeRows
      simp only [List.length_map]
      omega

theorem runStep_id {cfg : RunCfg} {cb : Bool} {st : RunState} {fr : Frame}
    (h : st.core.err.isSome) : runStep cfg cb st fr = st := by
  unfold runStep
  rw [if_pos h]

theorem foldl_idle (cfg : RunCfg) (cb : Bool) :
    ∀ (chunks : List Frame) (st : RunState), st.core.err.isSome →
      List.foldl (runStep cfg cb) st chunks = st := by
  intro chunks
  induction chunks with
  | nil => intro st _; rfl
  | cons fr rest ih =>
    intro st h
    rw [List.foldl_cons, runStep_id h]
    exact ih st h

theorem runStep_core_not_err {cfg : RunCfg} {cb : Bool} {st : RunState} {fr : Frame}
    (h : ¬ st.core.err.isSome) :
    (runStep cfg cb st fr).core = coreChunk cfg st.core fr := by
  unfold runStep
  rw [if_neg h]

theorem foldl_conserve (cfg : RunCfg) (cb : Bool) :
    ∀ (chunks : List Frame) (st : RunState),
      (st.core.err = none → consEq st.core) →
      (List.foldl (runStep cfg cb) st chunks).core.err = none →
      consEq (List.foldl (runStep cfg cb) st chunks).core := by
  intro chunks
  induction chunks with
  | nil => intro st h hne; exact h hne
  | cons fr rest ih =>
    intro st h hne
    rw [List.foldl_cons] at hne ⊢
    refine ih (runStep cfg cb st fr) ?_ hne
    intro h2
    by_cases he : st.core.err.isSome
    · rw [runStep_id he] at h2 ⊢
      exact h h2
    · rw [runStep_core_not_err he] at h2 ⊢
      refine coreChunk_conserve (h ?_) h2
      cases hx : st.core.err with
      | none => rfl
      | some e => rw [hx] at he; exact absurd rfl he

theorem finishRun_proj (cfg : RunCfg) (cb : Bool) (st : RunState) :
    (finishRun cfg cb st).core.err = st.core.err ∧
    (finishRun cfg cb st).core.rowsTotal = st.core.rowsTotal ∧
    (finishRun cfg cb st).core.writtenDirect = st.core.writtenDirect ∧
    (finishRun cfg cb st).core.dedupConsumed = st.core.dedupConsumed ∧
    (finishRun cfg cb st).core.filterRemoved = st.core.filterRemoved ∧
    (finishRun cfg cb st).core.colsStats = st.core.colsStats := by
  unfold finishRun
  cases herr : st.core.err with
  | some e => exact ⟨herr, rfl, rfl, rfl, rfl, rfl⟩
  | none =>
    cases heng : st.core.engine with
    | some eng => exact ⟨herr.symm ▸ rfl, rfl, rfl, rfl, rfl, rfl⟩
    | none => exact ⟨herr.symm ▸ rfl, rfl, rfl, rfl, rfl, rfl⟩

/-- C5 as stated is false on the code: with the one-filled row filter active,
a filtered-out row is neither written nor consumed by the dedup engine. -/
def cfgC5 : RunCfg :=
  { columnsCfg := [], registry := fun _ _ => none, minLengthEnabled := false,
    minLengthValue := 3, minLengthCols := [], rowFilterEnabled := true,
    rowFilterSubset := ["a", "b", "c"], dedupEnabled := false, dedupSubset := [],
    dedupMergeCols := [], pick := fun _ _ => [], rowsEstimate := none }

/-- A single chunk whose only row has one filled cell among `a`, `b`, `c`. -/
def chunksC5 : List Frame :=
  [⟨["a", "b", "c"], [[("a", some "x"), ("b", some ""), ("c", some "")]]⟩]

/-- C5 fails on the code: the run completes with `rows_total = 1` while zero
rows were written directly and zero rows were consumed by the dedup engine —
the row was removed by the row filter. -/
theorem row_count_conservation_counterexample :
    (runPipelineM cfgC5 false chunksC5).core.err = none ∧
    (runPipelineM cfgC5 false chunksC5).core.rowsTotal = 1 ∧
    (runPipelineM cfgC5 false chunksC5).core.writtenDirect.length = 0 ∧
    (runPipelineM cfgC5 false chunksC5).core.dedupConsumed = 0 ∧
    (runPipelineM cfgC5 false chunksC5).core.rowsTotal ≠
      (runPipelineM cfgC5 false chunksC5).core.writtenDirect.length +
        (runPipelineM cfgC5 false chunksC5).core.dedupConsumed := by
  refine ⟨by decide, by decide, by decide, by decide, by decide⟩

/-- C5 amended: for every completed run, `rows_total` equals rows written
directly plus rows consumed by the dedup engine plus rows removed by the row
filter. -/
theorem row_count_conservation_amended (cfg : RunCfg) (cb : Bool) (chunks : List Frame)
    (h : (runPipelineM cfg cb chunks).core.err = none) :
    (runPipelineM cfg cb chunks).core.rowsTotal =
      (runPipelineM cfg cb chunks).core.writtenDirect.length +
        (runPipelineM cfg cb chunks).core.dedupConsumed +
        (runPipelineM cfg cb chunks).core.filterRemoved := by
  have hp := finishRun_proj cfg cb (chunks.foldl (runStep cfg cb) (initState cfg cb))
  have herr : (chunks.foldl (runStep cfg cb) (initState cfg cb)).core.err = none := by
    rw [← hp.1]
    exact h
  have hc := foldl_conserve cfg cb chunks (initState cfg cb) (fun _ => rfl) herr
  show (runPipelineM cfg cb chunks).core.rowsTotal = _
  unfold runPipelineM
  rw [hp.2.1, hp.2.2.1, hp.2.2.2.1, hp.2.2.2.2.1]
  exact hc

/-- Witness for C5 amended at the counterexample run: `1 = 0 + 0 + 1`. -/
theorem row_count_conservation_amended_witness :
    (runPipelineM cfgC5 false chunksC5).core.rowsTotal =
      (runPipelineM cfgC5 false chunksC5).core.writtenDirect.length +
        (runPipelineM cfgC5 false chunksC5).core.dedupConsumed +
        (runPipelineM cfgC5 false chunksC5).core.filterRemoved :=
  row_count_conservation_amended cfgC5 false chunksC5 (by decide)

/-! ### C9: a malformed rule entry aborts the run before any write -/

theorem applySteps_error (cfg : RunCfg) (col : String) :
    ∀ (steps : List RuleStep) (step : RuleStep), step ∈ steps → step.length ≠ 1 →
      ∀ cells, ∃ e, applySteps cfg col steps cells = .error e := by
  intro steps
  induction steps with
  | nil => intro step h; simp at h
  | cons s rest ih =>
    intro step hmem hbad cells
    rcases List.mem_cons.mp hmem with heq | hmem2
    · subst heq
      cases step with
      | nil => exact ⟨.badRuleFormat col, rfl⟩
      | cons p t =>
        cases t with
        | nil => simp at hbad
        | cons q t2 => exact ⟨.badRuleFormat col, rfl⟩
    · cases s with
      | nil => exact ⟨.badRuleFormat col, rfl⟩
      | cons p t =>
        cases t with
        | nil =>
          obtain ⟨n, prm⟩ := p
          cases hr : cfg.registry n prm with
          | none => exact ⟨.unknownRule n, by rw [applySteps, hr]⟩
          | some f =>
            obtain ⟨e, he⟩ := ih step hmem2 hbad (cells.map f)
            exact ⟨e, by rw [applySteps, hr]; exact he⟩
        | cons q t2 => exact ⟨.badRuleFormat col, rfl⟩

theorem processColumn_error (cfg : RunCfg) (base : Nat) (cols : List String)
    (rows : List Row) (colName : String) (steps : List RuleStep)
    (stats : List (String × ColStats)) (hcol : cols.contains colName = true)
    (hex : ∃ step ∈ steps, step.length ≠ 1) :
    ∃ e, processColumn cfg base cols rows colName steps stats = .error e := by
  obtain ⟨step, hmem, hbad⟩ := hex
  obtain ⟨e, he⟩ := applySteps_error cfg colName steps step hmem hbad
    (rows.map fun r => getCell r colName)
  refine ⟨e, ?_⟩
  unfold processColumn
  rw [if_neg (by simpa using hcol), he]

theorem columnPhase_error (cfg : RunCfg) (base : Nat) (cols : List String) :
    ∀ (entries : List (String × List RuleStep)) (colName : String) (steps : List RuleStep),
      (colName, steps) ∈ entries → cols.contains colName = true →
      (∃ step ∈ steps, step.length ≠ 1) →
      ∀ rows stats, ∃ e, columnPhase cfg base cols entries rows stats = .error e := by
  intro entries
  induction entries with
  | nil => intro c s h; simp at h
  | cons p rest ih =>
    intro colName steps hmem hcol hbad rows stats
    obtain ⟨c0, s0⟩ := p
    rcases List.mem_cons.mp hmem with heq | hmem2
    · have h1 : colName = c0 := congrArg Prod.fst heq
      have h2 : steps = s0 := congrArg Prod.snd heq
      subst h1
      subst h2
      obtain ⟨e, he⟩ := processColumn_error cfg base cols rows colName steps stats hcol hbad
      exact ⟨e, by rw [columnPhase, he]⟩
    · cases hpc : processColumn cfg base cols rows c0 s0 stats with
      | error e => exact ⟨e, by rw [columnPhase, hpc]⟩
      | ok pair =>
        obtain ⟨rows2, stats2⟩ := pair
        obtain ⟨e, he⟩ := ih colName steps hmem2 hcol hbad rows2 stats2
        exact ⟨e, by rw [columnPhase, hpc]; exact he⟩

theorem finishRun_err_some {cfg : RunCfg} {cb : Bool} {st : RunState}
    (h : st.core.err.isSome) : finishRun cfg cb st = st := by
  unfold finishRun
  cases herr : st.core.err with
  | some e => rfl
  | none => rw [herr] at h; simp at h

/-- C9 as stated is false on the code: a malformed rule entry for a column
that is *absent* from the input never raises — the column loop `continue`s —
and the run completes, writing the data row. -/
def cfgC9 : RunCfg :=
  { columnsCfg := [("zz", [[("a", []), ("b", [])]])], registry := fun _ _ => some id,
    minLengthEnabled := false, minLengthValue := 3, minLengthCols := [],
    rowFilterEnabled := false, rowFilterSubset := [], dedupEnabled := false,
    dedupSubset := [], dedupMergeCols := [], pick := fun _ _ => [], rowsEstimate := none }

/-- One chunk with column `a` only; the malformed rule is configured for
`zz`, which the input does not have. -/
def chunksC9 : List Frame := [⟨["a"], [[("a", some "x")]]⟩]

/-- C9 fails on the code: the configured column `zz` has a two-key rule
mapping, yet the run completes without error and writes one data row,
because `zz` is not among the input's columns. -/
theorem malformed_rule_counterexample :
    (∃ steps, ("zz", steps) ∈ cfgC9.columnsCfg ∧ ∃ step ∈ steps, step.length ≠ 1) ∧
    (runPipelineM cfgC9 false chunksC9).core.err = none ∧
    (runPipelineM cfgC9 false chunksC9).core.writtenDirect.length = 1 := by
  refine ⟨⟨[[("a", []), ("b", [])]], by decide, [("a", []), ("b", [])], by decide, by decide⟩,
    by decide, by decide⟩

/-- C9 amended: when a configured column that is present in the input's
columns has a malformed rule entry (not exactly one key) and the reader
yields at least one batch, the run aborts with a configuration error during
the first batch, and at that moment no data row has been written (directly
or from the dedup export). -/
theorem malformed_rule_aborts_amended (cfg : RunCfg) (cb : Bool) (fr : Frame)
    (rest : List Frame) (colName : String) (steps : List RuleStep) (step : RuleStep)
    (hmem : (colName, steps) ∈ cfg.columnsCfg) (hcol : fr.cols.contains colName = true)
    (hstep : step ∈ steps) (hbad : step.length ≠ 1) :
    (runPipelineM cfg cb (fr :: rest)).core.err.isSome ∧
    (runPipelineM cfg cb (fr :: rest)).core.writtenDirect = [] ∧
    (runPipelineM cfg cb (fr :: rest)).core.writtenExport = [] := by
  obtain ⟨e, he⟩ := columnPhase_error cfg (initState cfg cb).core.rowsTotal fr.cols
    cfg.columnsCfg colName steps hmem hcol ⟨step, hstep, hbad⟩ fr.rows
    (initState cfg cb).core.colsStats
  have h1 : (runStep cfg cb (initState cfg cb) fr).core =
      coreChunk cfg (initState cfg cb).core fr :=
    runStep_core_not_err (by simp [initState])
  have h2 : coreChunk cfg (initState cfg cb).core fr =
      { (initState cfg cb).core with
        rowsTotal := (initState cfg cb).core.rowsTotal + fr.rows.length,
        err := some e } := coreChunk_error he
  have hsome : (runStep cfg cb (initState cfg cb) fr).core.err.isSome := by
    rw [h1, h2]
    rfl
  have h3 : List.foldl (runStep cfg cb) (initState cfg cb) (fr :: rest) =
      runStep cfg cb (initState cfg cb) fr := by
    rw [List.foldl_cons]
    exact foldl_idle cfg cb rest _ hsome
  have h4 : runPipelineM cfg cb (fr :: rest) = runStep cfg cb (initState cfg cb) fr := by
    unfold runPipelineM
    rw [h3]
    exact finishRun_err_some hsome
  rw [h4, h1, h2]
  exact ⟨rfl, rfl, rfl⟩

/-- Witness for C9 amended: the malformed entry sits on column `a`, which is
present, so the run aborts with nothing written. -/
def cfgC9p : RunCfg :=
  { columnsCfg := [("a", [[("x", []), ("y", [])]])], registry := fun _ _ => some id,
    minLengthEnabled := false, minLengthValue := 3, minLengthCols := [],
    rowFilterEnabled := false, rowFilterSubset := [], dedupEnabled := false,
    dedupSubset := [], dedupMergeCols := [], pick := fun _ _ => [], rowsEstimate := none }

theorem malformed_rule_aborts_amended_witness :
    (runPipelineM cfgC9p false [⟨["a"], [[("a", some "x")]]⟩]).core.err.isSome ∧
    (runPipelineM cfgC9p false [⟨["a"], [[("a", some "x")]]⟩]).core.writtenDirect = [] :=
  ⟨(malformed_rule_aborts_amended cfgC9p false ⟨["a"], [[("a", some "x")]]⟩ []
      "a" [[("x", []), ("y", [])]] [("x", []), ("y", [])]
      (by decide) (by decide) (by decide) (by decide)).1,
   (malformed_rule_aborts_amended cfgC9p false ⟨["a"], [[("a", some "x")]]⟩ []
      "a" [[("x", []), ("y", [])]] [("x", []), ("y", [])]
      (by decide) (by decide) (by decide) (by decide)).2.1⟩

/-! ### C10: the progress callback is purely observational

In this embedding a callback is a pure observer, so the only thing that can
depend on its presence is the recorded event list; the theorem makes that
explicit: every result field — output rows, per-column statistics, counters,
the outcome — is identical whether or not a callback is supplied, and the
`processing` events of a completed run number exactly one per batch. -/

theorem runStep_core_congr (cfg : RunCfg) (b1 b2 : Bool) {st1 st2 : RunState}
    (h : st1.core = st2.core) (fr : Frame) :
    (runStep cfg b1 st1 fr).core = (runStep cfg b2 st2 fr).core := by
  unfold runStep
  by_cases he : st1.core.err.isSome
  · rw [if_pos he, if_pos (h ▸ he)]
    exact h
  · rw [if_neg he, if_neg (h ▸ he)]
    show coreChunk cfg st1.core fr = coreChunk cfg st2.core fr
    rw [h]

theorem foldl_core_congr (cfg : RunCfg) (b1 b2 : Bool) :
    ∀ (chunks : List Frame) (st1 st2 : RunState), st1.core = st2.core →
      (List.foldl (runStep cfg b1) st1 chunks).core =
        (List.foldl (runStep cfg b2) st2 chunks).core := by
  intro chunks
  induction chunks with
  | nil => intro st1 st2 h; exact h
  | cons fr rest ih =>
    intro st1 st2 h
    rw [List.foldl_cons, List.foldl_cons]
    exact ih _ _ (runStep_core_congr cfg b1 b2 h fr)

theorem finishRun_core_congr (cfg : RunCfg) (b1 b2 : Bool) {st1 st2 : RunState}
    (h : st1.core = st2.core) :
    (finishRun cfg b1 st1).core = (finishRun cfg b2 st2).core := by
  unfold finishRun
  rw [← h]
  cases herr : st1.core.err with
  | some e => exact h
  | none => rfl

theorem events_foldl (cfg : RunCfg) :
    ∀ (chunks : List Frame) (st : RunState),
      (List.foldl (runStep cfg true) st chunks).core.err = none →
      ((List.foldl (runStep cfg true) st chunks).events.filter
          fun ev => ev.phase == "processing").length =
        (st.events.filter fun ev => ev.phase == "processing").length + chunks.length := by
  intro chunks
  induction chunks with
  | nil => intro st _; rfl
  | cons fr rest ih =>
    intro st hfin
    rw [List.foldl_cons] at hfin ⊢
    have h1 : (runStep cfg true st fr).core.err = none := by
      cases hx : (runStep cfg true st fr).core.err with
      | none => rfl
      | some e =>
        rw [foldl_idle cfg true rest _ (by rw [hx]; rfl)] at hfin
        rw [hx] at hfin
        exact absurd hfin (by simp)
    have h0 : ¬ st.core.err.isSome := by
      intro hx
      rw [runStep_id hx] at h1
      rw [h1] at hx
      simp at hx
    have hc : (coreChunk cfg st.core fr).err = none := by
      rw [← @runStep_core_not_err cfg true st fr h0]
      exact h1
    have hstep : runStep cfg true st fr =
        ⟨coreChunk cfg st.core fr,
         st.events ++ [⟨"processing", (coreChunk cfg st.core fr).rowsTotal,
           pctOf cfg.rowsEstimate (coreChunk cfg st.core fr).rowsTotal⟩]⟩ := by
      unfold runStep
      rw [if_neg h0]
      simp [hc]
    rw [hstep] at hfin ⊢
    rw [ih _ hfin]
    have hone : (List.filter (fun ev => ev.phase == "processing")
        (st.events ++ [(⟨"processing", (coreChunk cfg st.core fr).rowsTotal,
          pctOf cfg.rowsEstimate (coreChunk cfg st.core fr).rowsTotal⟩ : PEvent)])).length =
        (List.filter (fun ev => ev.phase == "processing") st.events).length + 1 := by
      rw [List.filter_append]
      simp
    rw [hone]
    simp only [List.length_cons]
    omega

theorem finishRun_events_done {cfg : RunCfg} {st : RunState} (h : st.core.err = none) :
    ∃ ev : PEvent, (finishRun cfg true st).events = st.events ++ [ev] ∧
      ev.phase = "done" := by
  unfold finishRun
  rw [h]
  cases heng : st.core.engine with
  | some eng => exact ⟨_, rfl, rfl⟩
  | none => exact ⟨_, rfl, rfl⟩

/-- C10: two runs that differ only in whether a progress callback is supplied
produce identical results — output rows (direct and exported), rows_total,
per-column changed/cleared/initial-empty counts and examples, row-filter
removed count, dedup removed count, engine state and outcome — and on a
completed run the callback fires exactly once per batch (plus one start and
one done event). -/
theorem progress_callback_observational (cfg : RunCfg) (chunks : List Frame)
    (b1 b2 : Bool) :
    (runPipelineM cfg b1 chunks).core = (runPipelineM cfg b2 chunks).core ∧
    ((runPipelineM cfg true chunks).core.err = none →
      ((runPipelineM cfg true chunks).events.filter
          fun ev => ev.phase == "processing").length = chunks.length) := by
  constructor
  · unfold runPipelineM
    exact finishRun_core_congr cfg b1 b2 (foldl_core_congr cfg b1 b2 chunks _ _ rfl)
  · intro hok
    have herr : (chunks.foldl (runStep cfg true) (initState cfg true)).core.err = none := by
      have hp := finishRun_proj cfg true (chunks.foldl (runStep cfg true) (initState cfg true))
      rw [← hp.1]
      exact hok
    obtain ⟨ev, hev, hph⟩ := @finishRun_events_done cfg _ herr
    show ((finishRun cfg true (chunks.foldl (runStep cfg true) (initState cfg true))).events.filter
        fun ev => ev.phase == "processing").length = chunks.length
    rw [hev, List.filter_append, List.length_append]
    have hzero : (List.filter (fun e2 => e2.phase == "processing") [ev]).length = 0 := by
      have hb : (ev.phase == "processing") = false := by rw [hph]; decide
      simp [List.filter, hb]
    rw [hzero]
    have hcount := events_foldl cfg chunks (initState cfg true) herr
    rw [hcount]
    have hb2 : (("start" : String) == "processing") = false := by decide
    simp [initState, List.filter, hb2]

/-- Concrete run for the C10 witness: two batches, no dedup, no filter. -/
def cfgC10 : RunCfg :=
  { columnsCfg := [], registry := fun _ _ => none, minLengthEnabled := false,
    minLengthValue := 3, minLengthCols := [], rowFilterEnabled := false,
    rowFilterSubset := [], dedupEnabled := false, dedupSubset := [],
    dedupMergeCols := [], pick := fun _ _ => [], rowsEstimate := some 2 }

def chunksC10 : List Frame :=
  [⟨["a"], [[("a", some "x")]]⟩, ⟨["a"], [[("a", some "y")]]⟩]

theorem progress_callback_observational_witness :
    (runPipelineM cfgC10 true chunksC10).core = (runPipelineM cfgC10 false chunksC10).core ∧
    ((runPipelineM cfgC10 true chunksC10).events.filter
        fun ev => ev.phase == "processing").length = 2 :=
  ⟨(progress_callback_observational cfgC10 chunksC10 true false).1,
   (progress_callback_observational cfgC10 chunksC10 true false).2 (by decide)⟩

end CsvNorm
